import Mathlib

/-!
# go-function-coverage: a shallow embedding

Definitions follow the Go sources:

* `pkg/covcollect/covcollect.go` (and its copy `covercollect/covcollect.go`): the runtime
  collection library, `Cover.Collect` and `Cover.PeriodicalCollect`;
* `cmd/funccover/helper.go`: `addCounters`, `declCover`, `declTmpl`;
* `instrumentation.go`: `packageInstrumentation.Instrument`;
* `main.go` (and `cmd/funccover/main.go`): `isCompile`, `isLink`, `getSources`, `getOptions`,
  `parseOption`, `instrumentPackage`, `main`.

Go strings that hold text are Lean strings, `[]byte` values are lists of naturals below 256,
a run-time panic is the `none` / `panicked` outcome of the function that raises it.
-/

namespace Funccover

/-! ## A fragment of Go's `fmt` formatting -/

/-- Operand of a formatting call, with the Go type it has at the call site. -/
inductive Arg where
  | str (s : String)
  | int (i : Int)
  | uint32 (n : Nat)
  | bool (b : Bool)
deriving DecidableEq, Repr

/-- Go type name of an operand, as `fmt` prints it in a bad-verb report. -/
def Arg.typeName : Arg → String
  | .str _ => "string"
  | .int _ => "int"
  | .uint32 _ => "uint32"
  | .bool _ => "bool"

/-- Default rendering of an operand (verb `%v`). -/
def Arg.valueText : Arg → String
  | .str s => s
  | .int i => toString i
  | .uint32 n => toString n
  | .bool b => if b then "true" else "false"

/-- Report of `fmt` for a verb that the operand type does not support: `%!verb(type=value)`. -/
def badVerb (verb : Char) (a : Arg) : String :=
  "%!" ++ verb.toString ++ "(" ++ a.typeName ++ "=" ++ a.valueText ++ ")"

/-- Rendering of one operand under one verb, for the verbs `%v`, `%s`, `%d`, `%t`. -/
def fmtArg (verb : Char) (a : Arg) : String :=
  if verb = 'v' then a.valueText
  else match a with
    | .str s => if verb = 's' then s else badVerb verb a
    | .int i => if verb = 'd' then toString i else badVerb verb a
    | .uint32 n => if verb = 'd' then toString n else badVerb verb a
    | .bool b => if verb = 't' then (if b then "true" else "false") else badVerb verb a

/-- Report of `fmt` for operands left over after the format is exhausted. -/
def extraArgs : List Arg → String
  | [] => ""
  | a :: as =>
    "%!(EXTRA " ++ a.typeName ++ "=" ++ a.valueText ++
      String.join (as.map (fun b => ", " ++ b.typeName ++ "=" ++ b.valueText)) ++ ")"

/-- The function `fmt.Sprintf` on a format given as a list of characters. -/
def sprintfAux : List Char → List Arg → String
  | [], as => extraArgs as
  | ['%'], _ => "%!(NOVERB)"
  | '%' :: '%' :: rest, as => "%" ++ sprintfAux rest as
  | '%' :: v :: rest, [] => "%!" ++ v.toString ++ "(MISSING)" ++ sprintfAux rest []
  | '%' :: v :: rest, a :: as => fmtArg v a ++ sprintfAux rest as
  | c :: rest, as => c.toString ++ sprintfAux rest as

/-- The function `fmt.Sprintf`. -/
def Sprintf (format : String) (as : List Arg) : String :=
  sprintfAux format.data as

/-! ## The runtime collection library (`covcollect`) -/

/-- The struct `Cover` of `covcollect.go`. -/
structure Cover where
  Len : Int
  Names : List String
  Lines : List Nat
  Counts : List Bool
deriving DecidableEq, Repr

/-- Files of the host: the content of each existing path, and the paths `os.Create` refuses. -/
structure FileSystem where
  files : String → Option String
  denied : String → Bool

/-- The call `os.Create(path)`: truncates or creates the file, or fails. -/
def FileSystem.create (fs : FileSystem) (path : String) : Option FileSystem :=
  if fs.denied path then none
  else some { fs with files := fun p => if p = path then some "" else fs.files p }

/-- Appends text to a file that exists (the buffered writer flushed into the descriptor). -/
def FileSystem.append (fs : FileSystem) (path : String) (text : String) : FileSystem :=
  { fs with files := fun p =>
      if p = path then some ((fs.files p).getD "" ++ text) else fs.files p }

/-- Outcome of a run of library code: the files it leaves, whether it panicked, and how
many times `Collect` was entered. -/
structure Run where
  fs : FileSystem
  panicked : Bool
  collects : Nat

/-- The loop `for i, count := range c.Counts` of `Collect`: the text written from index `i`
on, and whether indexing `c.Names[i]` or `c.Lines[i]` panicked. -/
def collectLoop (c : Cover) : Nat → List Bool → String × Bool
  | _, [] => ("", false)
  | i, count :: rest =>
    match c.Names.get? i, c.Lines.get? i with
    | some name, some line =>
      let r := collectLoop c (i + 1) rest
      (Sprintf "%s:%d:%d\n" [.str name, .uint32 line, .bool count] ++ r.1, r.2)
    | _, _ => ("", true)

/-- The method `Cover.Collect`: creates `args[0]`, writes one line per counter, and flushes
in the deferred function (which also runs when the loop panics). -/
def Cover.Collect (c : Cover) (args : List String) (r : Run) : Run :=
  match args with
  | [] => { r with panicked := true, collects := r.collects + 1 }
  | path :: _ =>
    match r.fs.create path with
    | none => { r with panicked := true, collects := r.collects + 1 }
    | some fs1 =>
      let out := collectLoop c 0 c.Counts
      { fs := fs1.append path out.1, panicked := out.2, collects := r.collects + 1 }

/-- The ticker loop of `PeriodicalCollect`, observed for a number of ticks. -/
def tickLoop (c : Cover) (args : List String) : Nat → Run → Run
  | 0, r => r
  | n + 1, r =>
    let r1 := c.Collect args r
    if r1.panicked then r1 else tickLoop c args n r1

/-- The method `Cover.PeriodicalCollect`; `ParseDuration` stands for `time.ParseDuration`
(nanoseconds, or `none` for an error) and `ticks` for the ticks the ticker delivers while
the process is observed. -/
def Cover.PeriodicalCollect (ParseDuration : String → Option Int) (c : Cover)
    (period : String) (args : List String) (ticks : Nat) (r : Run) : Run :=
  match ParseDuration period with
  | none => r
  | some duration =>
    if duration ≤ 0 then r
    else tickLoop c args ticks r

/-- The text `Collect` leaves in the file `path` of an empty file system. -/
def collectedText (c : Cover) (path : String) : Option String :=
  (c.Collect [path] { fs := { files := fun _ => none, denied := fun _ => false },
                      panicked := false, collects := 0 }).fs.files path

/-- The line the specification gives for one counter: `name:line:flag` with the flag as
`true` or `false`. -/
def specLine (name : String) (line : Nat) (flag : Bool) : String :=
  name ++ ":" ++ toString line ++ ":" ++ (if flag then "true" else "false") ++ "\n"

/-- The three-counter table of the specification's collection example. -/
def exampleCover : Cover :=
  { Len := 3, Names := ["a", "b", "c"], Lines := [10, 20, 30], Counts := [true, false, true] }

/-! ## Bytes and outcomes -/

/-- Outcome of a Go function that may return an error, panic, end the process with an exit
code, or (in a model with fuel) run out of fuel. -/
inductive Outcome (α : Type) where
  | ok (a : α)
  | err (msg : String)
  | panic
  | exit (code : Nat)
  | timeout
deriving DecidableEq, Repr

/-- UTF-8 encoding of a code point, as the Go conversion `string(r)` and `utf8.EncodeRune`
produce it (surrogates and values above U+10FFFF become U+FFFD). -/
def encodeRune (r : Nat) : List Nat :=
  if r < 0x80 then [r]
  else if r < 0x800 then [0xC0 + r / 64, 0x80 + r % 64]
  else if (0xD800 ≤ r ∧ r < 0xE000) ∨ 0x10FFFF < r then [0xEF, 0xBF, 0xBD]
  else if r < 0x10000 then [0xE0 + r / 4096, 0x80 + r / 64 % 64, 0x80 + r % 64]
  else [0xF0 + r / 262144, 0x80 + r / 4096 % 64, 0x80 + r / 64 % 64, 0x80 + r % 64]

/-- The bytes of a Go string given as text. -/
def stringBytes (s : String) : List Nat :=
  s.data.flatMap (fun c => encodeRune c.toNat)

/-! ## The syntax tree `go/parser` returns, as far as `addCounters` reads it -/

/-- A block statement `ast.BlockStmt`: the position of its opening brace, the bodies of the
function literals nested in it, and the position of its closing brace. Positions are
`token.Pos` values: in a fresh file set, one more than the byte offset. -/
inductive BlockStmt where
  | mk (Lbrace : Nat) (funcLits : List BlockStmt) (Rbrace : Nat)

/-- Position of the opening brace of a block. -/
def BlockStmt.Lbrace : BlockStmt → Nat
  | .mk l _ _ => l

/-- A top-level declaration `ast.Decl`. A method is a `FuncDecl` with a receiver; a function
declared without a body has `Body = none` (a nil pointer in Go). -/
inductive Decl where
  | GenDecl
  | FuncDecl (Recv : Option String) (Name : String) (Body : Option BlockStmt)
  | BadDecl

/-- The parsed file `ast.File`, as far as it is read here. -/
structure File where
  Decls : List Decl

/-- The loop over `parsedFile.Decls` of `addCounters`: appends `int(t.Body.Lbrace)` for every
`*ast.FuncDecl`; `none` is the nil-pointer panic on a declaration without a body. -/
def collectEvents : List Decl → Option (List Nat)
  | [] => some []
  | .FuncDecl _ _ body :: ds =>
    match body with
    | none => none
    | some b =>
      match collectEvents ds with
      | none => none
      | some es => some (b.Lbrace :: es)
  | _ :: ds => collectEvents ds

/-! ## `addCounters` (`cmd/funccover/helper.go`) -/

/-- One `fmt.Fprintf` call of `addCounters` on the writer `w`. -/
inductive Write where
  | counter (suffix : String) (index : Nat)
  | byte (b : Nat)
deriving DecidableEq, Repr

/-- The bytes a write call puts on the writer: the counter-set statement, or
`string(content[i])` under `%s`, the UTF-8 text of the code point `content[i]`. -/
def Write.bytes : Write → List Nat
  | .counter suffix index =>
    stringBytes (Sprintf "\ncover_%s.Counts[%v] = true;" [.str suffix, .int index])
  | .byte b => stringBytes (Sprintf "%s" [.str (String.singleton (Char.ofNat b))])

/-- Whether a write is a counter-set statement. -/
def Write.isCounter : Write → Bool
  | .counter _ _ => true
  | .byte _ => false

/-- The bytes on the writer after a sequence of writes. -/
def render (ws : List Write) : List Nat :=
  ws.flatMap Write.bytes

/-- The loop `for i := 0; i < contentLength; i++` of `addCounters`, from position `i` with
`currentIndex` events consumed; the statement carries the index `first + currentIndex`
(`first` is 0 in `cmd/funccover/helper.go`). -/
def insertLoop (suffix : String) (events : List Nat) (first : Nat) :
    Nat → Nat → List Nat → List Write
  | _, _, [] => []
  | i, currentIndex, b :: rest =>
    if events[currentIndex]? = some i then
      .counter suffix (first + currentIndex) :: .byte b ::
        insertLoop suffix events first (i + 1) (currentIndex + 1) rest
    else
      .byte b :: insertLoop suffix events first (i + 1) currentIndex rest

/-- The function `addCounters` of `cmd/funccover/helper.go`; `ParseFile` stands for
`parser.ParseFile` on a fresh file set. The result is the sequence of writes on `w`. -/
def addCounters (ParseFile : List Nat → Except String File) (content : List Nat)
    (suffix _fileName : String) : Outcome (List Write) :=
  match ParseFile content with
  | .error e => .err e
  | .ok parsedFile =>
    match collectEvents parsedFile.Decls with
    | none => .panic
    | some events => .ok (insertLoop suffix events 0 0 0 content)

/-- Modelled from the spec: the five-argument `addCounters` that `instrumentation.go` calls
(`index, err := addCounters(buf, content, h.suffix, h.fileName, currentIndex)`) is missing from
the sources. Per section 4.2 it inserts one counter-set statement at each record offset in a
single pass, numbering them from the starting global counter index, and returns the original
count plus the number of records in the unit. The insertion offsets come from the same
declaration walk as in `cmd/funccover/helper.go`. -/
def addCountersFrom (ParseFile : List Nat → Except String File) (content : List Nat)
    (suffix _fileName : String) (currentIndex : Nat) : Outcome (List Write × Nat) :=
  match ParseFile content with
  | .error e => .err e
  | .ok parsedFile =>
    match collectEvents parsedFile.Decls with
    | none => .panic
    | some events =>
      .ok (insertLoop suffix events currentIndex 0 0 content, currentIndex + events.length)

/-- What is left of the written bytes once every counter-set statement is removed. -/
def stripCounters (ws : List Write) : List Nat :=
  render (ws.filter (fun w => !w.isCounter))

/-- The counter indices carried by the counter-set statements of a write sequence, in
order. -/
def counterIndices : List Write → List Nat
  | [] => []
  | .counter _ k :: ws => k :: counterIndices ws
  | .byte _ :: ws => counterIndices ws

/-! ## A fragment of `text/template`, enough for `declTmpl` -/

/-- Node of a template inside a `range` or `if` block: literal text or a field of the dot. -/
inductive Inner where
  | text (s : String)
  | field (name : String)
deriving DecidableEq, Repr

/-- Top-level node of a template. -/
inductive Node where
  | text (s : String)
  | field (name : String)
  | range (field : String) (body : List Inner)
  | ifEq (field : String) (value : Int) (body : List Inner)
deriving DecidableEq, Repr

/-- Lexical item of a template: literal text or the words of an action. -/
inductive Token where
  | text (s : List Char)
  | action (words : List (List Char))
deriving DecidableEq, Repr

/-- Splits the inside of an action at blanks. -/
def actionWords : List Char → List Char → List (List Char)
  | [], acc => if acc = [] then [] else [acc.reverse]
  | c :: rest, acc =>
    if c = ' ' then (if acc = [] then actionWords rest [] else acc.reverse :: actionWords rest [])
    else actionWords rest (c :: acc)

/-- Cuts a template at the delimiters of its actions. -/
def lexTemplate : List Char → Bool → List Char → List Token
  | [], _, acc => if acc = [] then [] else [.text acc.reverse]
  | '{' :: '{' :: rest, false, acc =>
    (if acc = [] then [] else [.text acc.reverse]) ++ lexTemplate rest true []
  | '}' :: '}' :: rest, true, acc => .action (actionWords acc.reverse []) :: lexTemplate rest false []
  | c :: rest, inAction, acc => lexTemplate rest inAction (c :: acc)

/-- An open `range` or `if eq` block while the template is being built. -/
inductive Header where
  | range (field : String)
  | ifEq (field : String) (value : Int)
deriving DecidableEq, Repr

/-- Closes an open block. -/
def Header.close : Header → List Inner → Node
  | .range f, body => .range f body
  | .ifEq f v, body => .ifEq f v body

/-- Reads a decimal literal. -/
def readNat : List Char → Nat → Option Nat
  | [], n => some n
  | c :: rest, n => if c.isDigit then readNat rest (10 * n + (c.toNat - 48)) else none

/-- Builds the node list from the lexical items; blocks do not nest in `declTmpl`. -/
def buildTemplate : List Token → Option (Header × List Inner) → Option (List Node)
  | [], none => some []
  | [], some _ => none
  | .text s :: rest, none => (buildTemplate rest none).map (fun ns => .text (String.mk s) :: ns)
  | .text s :: rest, some (h, body) => buildTemplate rest (some (h, body ++ [.text (String.mk s)]))
  | .action [('.' :: f)] :: rest, none =>
    (buildTemplate rest none).map (fun ns => .field (String.mk f) :: ns)
  | .action [('.' :: f)] :: rest, some (h, body) =>
    buildTemplate rest (some (h, body ++ [.field (String.mk f)]))
  | .action [['r', 'a', 'n', 'g', 'e'], ('.' :: f)] :: rest, none =>
    buildTemplate rest (some (.range (String.mk f), []))
  | .action [['i', 'f'], ['e', 'q'], ('.' :: f), v] :: rest, none =>
    match readNat v 0 with
    | none => none
    | some n => buildTemplate rest (some (.ifEq (String.mk f) n, []))
  | .action [['e', 'n', 'd']] :: rest, some (h, body) =>
    (buildTemplate rest none).map (fun ns => h.close body :: ns)
  | .action _ :: _, _ => none

/-- The call `template.New(...).Parse(text)`. -/
def parseTemplate (text : String) : Option (List Node) :=
  buildTemplate (lexTemplate text.data false []) none

/-- Modelled from the spec: the struct `FuncCoverBlock` is declared in a file missing from
the sources; the template reads its fields `Name` and `Line`, the name and the source line of
a function record (`{name: string, line: uint32, ...}`). -/
structure FuncCoverBlock where
  Name : String
  Line : Nat
deriving DecidableEq, Repr

/-- Modelled from the spec: the struct `FuncCover` is declared in a file missing from the
sources; `Instrument` and `declCover` read its field `FuncBlocks`, the record list. -/
structure FuncCover where
  FuncBlocks : List FuncCoverBlock
deriving DecidableEq, Repr

/-- Value of a field of the dot. -/
inductive Value where
  | str (s : String)
  | int (i : Int)
  | uint32 (n : Nat)
  | blocks (bs : List FuncCoverBlock)

/-- Text a template action prints for a value (slices are not printed by `declTmpl`). -/
def Value.print : Value → Option String
  | .str s => some s
  | .int i => some (toString i)
  | .uint32 n => some (toString n)
  | .blocks _ => none

/-- Field lookup on a function record. -/
def FuncCoverBlock.field (b : FuncCoverBlock) (name : String) : Option Value :=
  if name = "Name" then some (.str b.Name)
  else if name = "Line" then some (.uint32 b.Line)
  else none

/-- The anonymous struct `declParams` of `declCover`. -/
structure DeclParams where
  Suffix : String
  UsePeriod : Int
  Period : String
  FuncCount : Int
  FuncBlocks : List FuncCoverBlock
  FileName : String

/-- Field lookup on the parameters of the declaration template. -/
def DeclParams.field (p : DeclParams) (name : String) : Option Value :=
  if name = "Suffix" then some (.str p.Suffix)
  else if name = "UsePeriod" then some (.int p.UsePeriod)
  else if name = "Period" then some (.str p.Period)
  else if name = "FuncCount" then some (.int p.FuncCount)
  else if name = "FuncBlocks" then some (.blocks p.FuncBlocks)
  else if name = "FileName" then some (.str p.FileName)
  else none

/-- Executes the body of a block against a dot; `none` is an execution error. -/
def execInner (dot : String → Option Value) : List Inner → Option String
  | [] => some ""
  | .text s :: rest => (execInner dot rest).map (fun t => s ++ t)
  | .field f :: rest =>
    match dot f with
    | none => none
    | some v =>
      match v.print, execInner dot rest with
      | some s, some t => some (s ++ t)
      | _, _ => none

/-- Executes a block body once for every record, in order. -/
def execRange (body : List Inner) : List FuncCoverBlock → Option String
  | [] => some ""
  | b :: bs =>
    match execInner b.field body, execRange body bs with
    | some s, some t => some (s ++ t)
    | _, _ => none

/-- The call `funcTemplate.Execute(w, declParams)`; `none` is an execution error. -/
def execNodes (p : DeclParams) : List Node → Option String
  | [] => some ""
  | .text s :: rest => (execNodes p rest).map (fun t => s ++ t)
  | .field f :: rest =>
    match p.field f with
    | none => none
    | some v =>
      match v.print, execNodes p rest with
      | some s, some t => some (s ++ t)
      | _, _ => none
  | .range f body :: rest =>
    match p.field f with
    | some (.blocks bs) =>
      match execRange body bs, execNodes p rest with
      | some s, some t => some (s ++ t)
      | _, _ => none
    | _ => none
  | .ifEq f v body :: rest =>
    match p.field f with
    | some (.int i) =>
      match (if i = v then execInner p.field body else some ""), execNodes p rest with
      | some s, some t => some (s ++ t)
      | _, _ => none
    | _ => none

/-- The template text `declTmpl` of `cmd/funccover/helper.go`. -/
def declTmpl : String :=
  "\nvar cover_\x7b\x7b.Suffix\x7d\x7d = covcollect.Cover \x7b\n\tLen: \x7b\x7b.FuncCount\x7d\x7d,\n\tLines: []uint32\x7b \x7b\x7brange .FuncBlocks\x7d\x7d\n\t\t\x7b\x7b.Line\x7d\x7d,\x7b\x7bend\x7d\x7d\n\t\x7d,\n\tNames: []string\x7b \x7b\x7brange .FuncBlocks\x7d\x7d\n\t\t\"\x7b\x7b.Name\x7d\x7d\",\x7b\x7bend\x7d\x7d\n\t\x7d,\n\tCounts: []bool\x7b \x7b\x7brange .FuncBlocks\x7d\x7d\n\t\tfalse,\x7b\x7bend\x7d\x7d\n\t\x7d,\n\x7d\n\x7b\x7b if eq .UsePeriod 1 \x7d\x7d\nfunc init() \x7b\n    go cover_\x7b\x7b.Suffix\x7d\x7d.PeriodicalCollect(\"\x7b\x7b.Period\x7d\x7d\",  \"\x7b\x7b.FileName\x7d\x7d\")\n\x7d\x7b\x7bend\x7d\x7d"

/-- The function `declCover` of `cmd/funccover/helper.go`: the text written on `w`, or
`none` for a panic. `durationString` stands for `fmt.Sprint` on a `time.Duration`. -/
def declCover (durationString : Int → String) (suffix fileName : String) (period : Int)
    (funcCover : FuncCover) : Option String :=
  match parseTemplate declTmpl with
  | none => none
  | some funcTemplate =>
    let usePeriod : Int := if period > 0 then 1 else 0
    execNodes
      { Suffix := suffix, UsePeriod := usePeriod, Period := durationString period,
        FuncCount := funcCover.FuncBlocks.length, FuncBlocks := funcCover.FuncBlocks,
        FileName := fileName }
      funcTemplate

/-! ## `instrumentation.go` -/

/-- The struct `packageInstrumentation` of `instrumentation.go`; the map `parsedFiles` is an
association list with distinct keys, and the file set is left to the parser. -/
structure packageInstrumentation where
  suffix : String
  fileName : String
  period : Int
  parsedFiles : List (String × List Nat)
  dir : String

/-- The libraries and the missing helper that `Instrument` calls: `parser.ParseFile`, the
function `SaveFuncs` (missing from the sources: it returns the records of a unit and whether
the unit contains the entry function), the chain `parser.ParseFile`, `astutil.AddImport`,
`astToByte` on a buffer, and `fmt.Sprint` on a duration. -/
structure Toolkit where
  ParseFile : List Nat → Except String File
  SaveFuncs : String → List Nat → Except String (List FuncCoverBlock × Bool)
  addImport : List Nat → Except String (List Nat)
  durationString : Int → String

/-- What `Instrument` computes for one unit: the writes of `addCounters` on `buf`, the bytes
stored in `instrumented[src]`, and whether the unit went through the import and declaration
step. -/
structure UnitResult where
  src : String
  counters : List Write
  bytes : List Nat
  augmented : Bool

/-- The first loop of `Instrument`: gathers the records and the main file. -/
def saveLoop (tk : Toolkit) : List (String × List Nat) → FuncCover → String →
    Outcome (FuncCover × String)
  | [], funcCover, mainFile => .ok (funcCover, mainFile)
  | (src, content) :: rest, funcCover, mainFile =>
    match tk.SaveFuncs src content with
    | .error e => .err e
    | .ok (temp, flag) =>
      saveLoop tk rest { FuncBlocks := funcCover.FuncBlocks ++ temp }
        (if flag = true then src else mainFile)

/-- The second loop of `Instrument`, from the cursor `currentIndex`; the results are listed
in the order the units are visited (the keys of a map are distinct, so each assignment to
`instrumented[src]` adds an entry). -/
def counterLoop (tk : Toolkit) (h : packageInstrumentation) (funcCover : FuncCover)
    (mainFile : String) : List (String × List Nat) → Nat → Outcome (List UnitResult)
  | [], _ => .ok []
  | (src, content) :: rest, currentIndex =>
    match addCountersFrom tk.ParseFile content h.suffix h.fileName currentIndex with
    | .err e => .err e
    | .panic => .panic
    | .exit c => .exit c
    | .timeout => .timeout
    | .ok (buf, index) =>
      if mainFile ≠ src then
        match counterLoop tk h funcCover mainFile rest index with
        | .ok rs => .ok ({ src := src, counters := buf, bytes := render buf, augmented := false } :: rs)
        | o => o
      else
        match tk.addImport (render buf) with
        | .error e => .err e
        | .ok importedContent =>
          match declCover tk.durationString h.suffix h.fileName h.period funcCover with
          | none => .panic
          | some decl =>
            match counterLoop tk h funcCover mainFile rest index with
            | .ok rs =>
              .ok ({ src := src, counters := buf, bytes := importedContent ++ stringBytes decl,
                     augmented := true } :: rs)
            | o => o

/-- The method `Instrument` of `instrumentation.go`; `first` and `second` are the orders in
which the two `range h.parsedFiles` loops visit the map. -/
def Instrument (tk : Toolkit) (h : packageInstrumentation)
    (first second : List (String × List Nat)) : Outcome (List UnitResult) :=
  match saveLoop tk first { FuncBlocks := [] } "" with
  | .ok (funcCover, mainFile) => counterLoop tk h funcCover mainFile second 0
  | .err e => .err e
  | .panic => .panic
  | .exit c => .exit c
  | .timeout => .timeout

/-- The map `instrumented` that `Instrument` returns. -/
def instrumentedMap (rs : List UnitResult) : List (String × List Nat) :=
  rs.map (fun r => (r.src, r.bytes))

/-! ## `main.go` -/

/-- The struct `Options` of `main.go`. -/
structure Options where
  output : String
  packageName : String
  importCfg : String
deriving DecidableEq, Repr

/-- The call `strings.SplitN(s, "=", 2)`, scanning `s` with the text before the cursor
reversed in `acc`. -/
def splitEq : List Char → List Char → List String
  | [], acc => [String.mk acc.reverse]
  | c :: rest, acc =>
    if c = '=' then [String.mk acc.reverse, String.mk rest] else splitEq rest (c :: acc)

/-- The function `parseOption` of `main.go`: the number of tokens consumed and the updated
options, or `none` for an index-out-of-range panic. -/
def parseOption (arg1 arg2 : String) (opt : Options) : Option (Nat × Options) :=
  let splitted := splitEq arg1.data []
  if splitted.length = 2 then
    if splitted[0]? = some "-o" then
      match splitted[2]? with
      | none => none
      | some v => some (1, { opt with output := v })
    else if splitted[0]? = some "-p" then
      match splitted[2]? with
      | none => none
      | some v => some (1, { opt with packageName := v })
    else if splitted[0]? = some "-importcfg" then
      match splitted[2]? with
      | none => none
      | some v => some (1, { opt with importCfg := v })
    else some (1, opt)
  else if arg2 = "" ∨ arg2.data.head? ≠ some '-' then
    if arg1 = "-o" then some (2, { opt with output := arg2 })
    else if arg1 = "-p" then some (2, { opt with packageName := arg2 })
    else if arg1 = "-importcfg" then some (2, { opt with importCfg := arg2 })
    else some (2, opt)
  else some (1, opt)

/-- The loop of `getOptions`, with one unit of fuel per iteration. -/
def getOptionsLoop (args : List String) : Nat → Nat → Options → Outcome Options
  | fuel, index, opt =>
    if index < args.length then
      match fuel with
      | 0 => .timeout
      | fuel + 1 =>
        match args[index]? with
        | none => .panic
        | some arg =>
          match arg.data.head? with
          | none => .panic
          | some c =>
            if c ≠ '-' then .ok opt
            else
              let arg2 := if index + 1 < args.length then args.getD (index + 1) "" else ""
              match parseOption arg arg2 opt with
              | none => .panic
              | some (k, opt1) => getOptionsLoop args fuel (index + k) opt1
    else .ok opt

/-- The function `getOptions` of `main.go`. -/
def getOptions (args : List String) : Outcome Options :=
  getOptionsLoop args args.length 0 { output := "", packageName := "", importCfg := "" }

/-- The function `filepath.Base` for slash-separated paths. -/
def Base (path : String) : String :=
  if path = "" then "."
  else
    let stripped := path.data.reverse.dropWhile (fun c => c = '/')
    let last := (stripped.takeWhile (fun c => c ≠ '/')).reverse
    if last = [] then "/" else String.mk last

/-- The scan of `filepath.Ext` from the end of the path. -/
def extScan : List Char → List Char → List Char
  | [], _ => []
  | c :: rest, acc =>
    if c = '/' then [] else if c = '.' then '.' :: acc else extScan rest (c :: acc)

/-- The function `filepath.Ext`. -/
def Ext (path : String) : String :=
  String.mk (extScan path.data.reverse [])

/-- The function `strings.HasSuffix`. -/
def HasSuffix (s suffix : String) : Bool :=
  suffix.data.reverse.isPrefixOf s.data.reverse

/-- The function `strings.TrimSuffix`. -/
def TrimSuffix (s suffix : String) : String :=
  if HasSuffix s suffix then String.mk (s.data.take (s.data.length - suffix.data.length)) else s

/-- The function `isCompile` of `main.go`. -/
def isCompile (command : String) : Bool :=
  let command := Base command
  let extension := Ext command
  let command := if extension ≠ "" then TrimSuffix command extension else command
  if command = "compile" then true else false

/-- The function `isLink` of `main.go`. -/
def isLink (command : String) : Bool :=
  let command := Base command
  let extension := Ext command
  let command := if extension ≠ "" then TrimSuffix command extension else command
  if command = "link" then true else false

/-- The function `getSources` of `main.go`. -/
def getSources : List String → List String × List String
  | [] => ([], [])
  | arg :: rest =>
    let r := getSources rest
    if HasSuffix arg ".go" then (arg :: r.1, r.2) else (r.1, arg :: r.2)

/-- The state of the host seen by the tool: file contents, the paths `os.Create` refuses,
and the argument lists passed to `executeCommand`, in order. -/
structure World where
  files : String → Option (List Nat)
  denied : String → Bool
  executed : List (List String)

/-- The tool's own flags `-period`, `-dir` and `-o`. -/
structure Flags where
  funcCoverPeriod : Int
  direc : String
  outputFile : String

/-- Library functions of the host used by `main.go`: `filepath.Dir`, `filepath.Join`,
`filepath.Abs`, the text `fmt.Sprintf("%x", sum[:6])` of the SHA-256 sum of a string, and the
orders in which the three `range` loops over maps visit their entries. -/
structure Host where
  Dir : String → String
  Join : String → String → String
  Abs : String → String
  hashHex : String → String
  rangeFirst : List (String × List Nat) → List (String × List Nat)
  rangeSecond : List (String × List Nat) → List (String × List Nat)
  rangeWrite : List (String × List Nat) → List (String × List Nat)

/-- Writes a whole file. -/
def World.write (w : World) (path : String) (content : List Nat) : World :=
  { w with files := fun p => if p = path then some content else w.files p }

/-- The function `executeCommand` of `main.go`: runs `args[0]` with the other arguments;
`none` is the panic of `args[0]` on an empty list. -/
def executeCommand (args : List String) (w : World) : Option World :=
  match args with
  | [] => none
  | _ :: _ => some { w with executed := w.executed ++ [args] }

/-- The assignment `m[k] = v` on a map given as an association list. -/
def mapSet (m : List (String × List Nat)) (k : String) (v : List Nat) :
    List (String × List Nat) :=
  if m.any (fun e => e.1 = k) then m.map (fun e => if e.1 = k then (k, v) else e)
  else m ++ [(k, v)]

/-- The method `AddFile` of `instrumentation.go`; `none` is the panic on a read error. -/
def AddFile (w : World) (h : packageInstrumentation) (src : String) :
    Option packageInstrumentation :=
  match w.files src with
  | none => none
  | some content => some { h with parsedFiles := mapSet h.parsedFiles src content }

/-- The loop `for _, src := range files` of `instrumentPackage` that adds the files. -/
def addFiles (host : Host) (w : World) : List String → packageInstrumentation →
    Option packageInstrumentation
  | [], h => some h
  | src :: rest, h =>
    match AddFile w h (host.Abs src) with
    | none => none
    | some h1 => addFiles host w rest h1

/-- The loop of `WriteInstrumented` of `instrumentation.go`; `none` is a creation error. -/
def writeLoop (host : Host) (path : String) : List (String × List Nat) → World → Option World
  | [], w => some w
  | (src, content) :: rest, w =>
    let filePath := host.Join path (Base src)
    if w.denied filePath then none
    else writeLoop host path rest (w.write filePath content)

/-- The method `WriteInstrumented` of `instrumentation.go`. -/
def WriteInstrumented (host : Host) (dir : String) (instrumented : List (String × List Nat))
    (w : World) : Option World :=
  writeLoop host dir (host.rangeWrite instrumented) w

/-- The manifest text both `instrumentPackage` and `link` of `main.go` append. -/
def covcollectEntry : String :=
  "packagefile covcollect=/Users/muratekici/Desktop/google/testdata/sample3/pkg.a"

/-- The function `instrumentPackage` of `main.go`: the argument list to forward and the
state of the host. -/
def instrumentPackage (tk : Toolkit) (host : Host) (flags : Flags) (args : List String)
    (w : World) : Outcome (List String × World) :=
  match getOptions (args.drop 1) with
  | .err e => .err e
  | .panic => .panic
  | .exit c => .exit c
  | .timeout => .timeout
  | .ok opt =>
    if opt.output = "" ∨ opt.packageName = "" ∨ opt.importCfg = "" then .ok (args, w)
    else
      let pkg := opt.packageName
      let buildDir := host.Dir opt.output
      if pkg ≠ "main" then .ok (args, w)
      else
        match w.files opt.importCfg with
        | none => .panic
        | some manifest =>
          let w1 := w.write opt.importCfg (manifest ++ stringBytes covcollectEntry)
          match w1.files (host.Join buildDir "importcfg") with
          | none => .exit 1
          | some _ =>
            let files := (getSources args).1
            let args1 := (getSources args).2
            match files with
            | [] => .panic
            | file0 :: _ =>
              let uniqueHash := host.hashHex file0
              let direc := if flags.direc = "" then buildDir else flags.direc
              let instrumentation : packageInstrumentation :=
                { dir := direc, suffix := uniqueHash, period := flags.funcCoverPeriod,
                  fileName := flags.outputFile, parsedFiles := [] }
              match addFiles host w1 files instrumentation with
              | none => .panic
              | some h =>
                match Instrument tk h (host.rangeFirst h.parsedFiles)
                    (host.rangeSecond h.parsedFiles) with
                | .ok rs =>
                  match WriteInstrumented host h.dir (instrumentedMap rs) w1 with
                  | none => .panic
                  | some w2 =>
                    .ok (args1 ++ files.map (fun src => host.Join h.dir (Base src)), w2)
                | _ => .panic

/-- The function `link` of `main.go`. -/
def link (args : List String) (w : World) : Outcome (List String × World) :=
  match getOptions (args.drop 1) with
  | .err e => .err e
  | .panic => .panic
  | .exit c => .exit c
  | .timeout => .timeout
  | .ok opt =>
    if opt.output = "" ∨ opt.importCfg = "" then .ok (args, w)
    else
      match w.files opt.importCfg with
      | none => .panic
      | some manifest =>
        .ok (args, w.write opt.importCfg (manifest ++ stringBytes covcollectEntry))

/-- The function `main` of `main.go` after `flag.Parse`: `args` is `flag.Args()`. The
result is the state of the host once `executeCommand` has run. -/
def main (tk : Toolkit) (host : Host) (flags : Flags) (args : List String) (w : World) :
    Outcome World :=
  if flags.funcCoverPeriod < 0 then .exit 2
  else if flags.outputFile = "" then .exit 2
  else
    match args with
    | [] => .exit 2
    | command :: _ =>
      if isCompile command then
        match instrumentPackage tk host flags args w with
        | .ok (args1, w1) =>
          match executeCommand args1 w1 with
          | none => .panic
          | some w2 => .ok w2
        | .err _ => .panic
        | .panic => .panic
        | .exit c => .exit c
        | .timeout => .timeout
      else if isLink command then
        match link args w with
        | .ok (args1, w1) =>
          match executeCommand args1 w1 with
          | none => .panic
          | some w2 => .ok w2
        | .err _ => .panic
        | .panic => .panic
        | .exit c => .exit c
        | .timeout => .timeout
      else
        match executeCommand args w with
        | none => .panic
        | some w1 => .ok w1

/-- The node list `template.Parse` builds from `declTmpl`. -/
def declNodes : List Node :=
  [ .text "\nvar cover_", .field "Suffix", .text " = covcollect.Cover \x7b\n\tLen: ",
    .field "FuncCount", .text ",\n\tLines: []uint32\x7b ",
    .range "FuncBlocks" [.text "\n\t\t", .field "Line", .text ","],
    .text "\n\t\x7d,\n\tNames: []string\x7b ",
    .range "FuncBlocks" [.text "\n\t\t\"", .field "Name", .text "\","],
    .text "\n\t\x7d,\n\tCounts: []bool\x7b ",
    .range "FuncBlocks" [.text "\n\t\tfalse,"],
    .text "\n\t\x7d,\n\x7d\n",
    .ifEq "UsePeriod" 1
      [.text "\nfunc init() \x7b\n    go cover_", .field "Suffix", .text ".PeriodicalCollect(\"",
       .field "Period", .text "\",  \"", .field "FileName", .text "\")\n\x7d"] ]

/-! ## Inputs and reference texts used by the theorems -/

/-- The line `Collect` writes for one counter: the flag goes through the verb `%d`. -/
def codeLine (name : String) (line : Nat) (flag : Bool) : String :=
  name ++ ":" ++ toString line ++ ":%!d(bool=" ++ (if flag then "true" else "false") ++ ")\n"

/-- A source unit with a non-ASCII character in a comment. -/
def nonAsciiUnit : List Nat :=
  stringBytes "package p\n// é\nfunc f() \x7b\x7d\n"

/-- The parse of `nonAsciiUnit`: one function whose body opens at offset 25 (position 26). -/
def nonAsciiParse : List Nat → Except String File :=
  fun _ => .ok { Decls := [.FuncDecl none "f" (some (.mk 26 [] 27))] }

/-- The insertion positions `addCounters` gathers for a unit (empty when it fails). -/
def unitEvents (ParseFile : List Nat → Except String File) (content : List Nat) : List Nat :=
  match ParseFile content with
  | .ok parsedFile => (collectEvents parsedFile.Decls).getD []
  | .error _ => []

/-- A unit parses, every function declaration has a body, and the gathered positions are
strictly increasing and lie inside the content. -/
def wellLocated (ParseFile : List Nat → Except String File) (content : List Nat) : Bool :=
  match ParseFile content with
  | .ok parsedFile =>
    match collectEvents parsedFile.Decls with
    | some events => decide (events.Pairwise (· < ·)) && events.all (fun e => e < content.length)
    | none => false
  | .error _ => false

/-- Total number of function declarations over a list of units. -/
def sessionCount (ParseFile : List Nat → Except String File) :
    List (String × List Nat) → Nat
  | [] => 0
  | u :: rest => (unitEvents ParseFile u.2).length + sessionCount ParseFile rest

/-- Concatenation of the texts of the elements of a list. -/
def joinMap {α : Type} (f : α → String) : List α → String
  | [] => ""
  | a :: as => f a ++ joinMap f as

/-- The entries of the `Lines` literal in the declaration block. -/
def linesText (bs : List FuncCoverBlock) : String :=
  joinMap (fun b => "\n\t\t" ++ toString b.Line ++ ",") bs

/-- The entries of the `Names` literal in the declaration block. -/
def namesText (bs : List FuncCoverBlock) : String :=
  joinMap (fun b => "\n\t\t\"" ++ b.Name ++ "\",") bs

/-- The entries of the `Counts` literal in the declaration block. -/
def countsText (bs : List FuncCoverBlock) : String :=
  joinMap (fun _ => "\n\t\tfalse,") bs

/-- The declaration of the variable `cover_<suffix>`, up to the line break after it. -/
def declText (suffix : String) (bs : List FuncCoverBlock) : String :=
  "\nvar cover_" ++ suffix ++ " = covcollect.Cover \x7b\n\tLen: " ++ toString bs.length ++
    ",\n\tLines: []uint32\x7b " ++ linesText bs ++ "\n\t\x7d,\n\tNames: []string\x7b " ++ namesText bs ++
    "\n\t\x7d,\n\tCounts: []bool\x7b " ++ countsText bs ++ "\n\t\x7d,\n\x7d\n"

/-- The package-initialization routine that starts the periodic collection. -/
def initText (suffix period fileName : String) : String :=
  "\nfunc init() \x7b\n    go cover_" ++ suffix ++ ".PeriodicalCollect(\"" ++ period ++
    "\",  \"" ++ fileName ++ "\")\n\x7d"

/-- A unit with the entry function and one more function; the bodies open at offsets 25
and 37 (positions 26 and 38). -/
def sampleMainUnit : List Nat :=
  stringBytes "package main\nfunc main() \x7b\x7d\nfunc g() \x7b\x7d\n"

/-- A unit with one function; its body opens at offset 22 (position 23). -/
def sampleLibUnit : List Nat :=
  stringBytes "package main\nfunc k() \x7b\x7d\n"

/-- The parses of the two sample units. -/
def sampleParse : List Nat → Except String File :=
  fun content =>
    if content = sampleMainUnit then
      .ok { Decls := [.FuncDecl none "main" (some (.mk 26 [] 27)),
                      .FuncDecl none "g" (some (.mk 38 [] 39))] }
    else if content = sampleLibUnit then
      .ok { Decls := [.FuncDecl none "k" (some (.mk 23 [] 24))] }
    else .error "syntax error"

/-- A toolkit for the sample units; the import step is left to add nothing. -/
def sampleToolkit : Toolkit :=
  { ParseFile := sampleParse,
    SaveFuncs := fun src _ =>
      if src = "/w/main.go" then .ok ([⟨"main", 2⟩, ⟨"g", 3⟩], true) else .ok ([⟨"k", 2⟩], false),
    addImport := fun buf => .ok buf,
    durationString := fun _ => "0s" }

/-- The two sample units as a map. -/
def sampleUnits : List (String × List Nat) :=
  [("/w/lib.go", sampleLibUnit), ("/w/main.go", sampleMainUnit)]

/-- A session over the two sample units. -/
def sampleSession : packageInstrumentation :=
  { suffix := "ab12", fileName := "cover.out", period := 0, parsedFiles := sampleUnits,
    dir := "/w/out" }

/-- A stand-in for `time.ParseDuration` that knows the texts `0s`, `-1s` and `1s`. -/
def sampleParseDuration : String → Option Int :=
  fun s =>
    if s = "0s" then some 0
    else if s = "-1s" then some (-1000000000)
    else if s = "1s" then some 1000000000
    else none

/-- A host with no files on which every path can be created. -/
def emptyRun : Run :=
  { fs := { files := fun _ => none, denied := fun _ => false }, panicked := false,
    collects := 0 }

/-- Number of function declarations among the top-level declarations, methods included. -/
def funcDeclCount : List Decl → Nat
  | [] => 0
  | .FuncDecl _ _ _ :: ds => funcDeclCount ds + 1
  | _ :: ds => funcDeclCount ds

/-- Number of top-level function declarations that are not methods: the declarations the
specification says are recorded. -/
def namedFunctionCount : List Decl → Nat
  | [] => 0
  | .FuncDecl none _ _ :: ds => namedFunctionCount ds + 1
  | _ :: ds => namedFunctionCount ds

/-- The positions of the opening braces of the function declarations that have a body, in
source order. -/
def funcDeclBraces : List Decl → List Nat
  | [] => []
  | .FuncDecl _ _ (some b) :: ds => b.Lbrace :: funcDeclBraces ds
  | _ :: ds => funcDeclBraces ds

/-- The content with one counter-set statement placed at each position of `events`: the
bytes before the position, the statement numbered `first + k`, and so on; `i` is the offset
of the first byte of `content`. -/
def splice (suffix : String) (first : Nat) : Nat → Nat → List Nat → List Nat → List Write
  | _, _, [], content => content.map Write.byte
  | k, i, e :: es, content =>
    (content.take (e - i)).map Write.byte ++
      Write.counter suffix (first + k) :: splice suffix first (k + 1) e es (content.drop (e - i))

/-- A unit with a method and a function that holds a function literal; the bodies open at
offsets 25 and 37, the literal at offset 51. -/
def methodUnit : List Nat :=
  stringBytes "package p\nfunc (t T) m() \x7b\x7d\nfunc f() \x7b g := func() \x7b\x7d; g() \x7d\n"

/-- The declarations of `methodUnit`. -/
def methodDecls : List Decl :=
  [.FuncDecl (some "T") "m" (some (.mk 26 [] 27)),
   .FuncDecl none "f" (some (.mk 38 [.mk 52 [] 53] 60))]

/-- The parse of `methodUnit`. -/
def methodParse : List Nat → Except String File :=
  fun _ => .ok { Decls := methodDecls }

/-- The `Cover` value the declaration block denotes for a record list: the length, the
lines and names of the records in order, and one false flag per record. -/
def declaredCover (bs : List FuncCoverBlock) : Cover :=
  { Len := bs.length, Names := bs.map (fun b => b.Name), Lines := bs.map (fun b => b.Line),
    Counts := List.replicate bs.length false }

/-- A `Cover` value written as the composite literal of the declaration block. -/
def coverLiteral (suffix : String) (c : Cover) : String :=
  "\nvar cover_" ++ suffix ++ " = covcollect.Cover \x7b\n\tLen: " ++ toString c.Len ++
    ",\n\tLines: []uint32\x7b " ++ joinMap (fun l => "\n\t\t" ++ toString l ++ ",") c.Lines ++
    "\n\t\x7d,\n\tNames: []string\x7b " ++ joinMap (fun n => "\n\t\t\"" ++ n ++ "\",") c.Names ++
    "\n\t\x7d,\n\tCounts: []bool\x7b " ++
    joinMap (fun b => "\n\t\t" ++ (if b = true then "true" else "false") ++ ",") c.Counts ++
    "\n\t\x7d,\n\x7d\n"

/-- Two function records. -/
def sampleBlocks : FuncCover :=
  { FuncBlocks := [⟨"main", 2⟩, ⟨"g", 3⟩] }

/-- The lines `Collect` writes for three parallel lists, as long as all three last. -/
def codeLines : List String → List Nat → List Bool → String
  | name :: names, line :: lines, flag :: flags =>
    codeLine name line flag ++ codeLines names lines flags
  | _, _, _ => ""

/-! ## `cmd/funccover/main.go`: the link step -/

/-- The package names of the `f.WriteString` calls of `link` in `cmd/funccover/main.go` that
follow the `covcollect` entry, in order (two names appear twice in the source). -/
def linkArchives : List String :=
  ["fmt", "bufio", "os", "time", "bytes", "errors", "io", "unicode/utf8", "unicode", "strconv",
   "internal/fmtsort", "reflect", "sync", "math", "syscall", "internal/testlog",
   "internal/oserror", "internal/poll", "sync/atomic", "internal/syscall/execenv",
   "internal/syscall/unix", "internal/reflectlite", "internal/syscall/unix",
   "internal/reflectlite", "math/bits", "sort", "internal/race"]

/-- The texts `link` of `cmd/funccover/main.go` writes to the manifest, one per
`f.WriteString` call. -/
def Cmd.linkLines (buildDirArchive pkgPath : String) : List String :=
  ("packagefile covcollect=" ++ buildDirArchive ++ "\n") ::
    linkArchives.map (fun name => "packagefile " ++ name ++ "=" ++ pkgPath ++ "/" ++ name ++ ".a\n")

/-- The function `link` of `cmd/funccover/main.go`. -/
def Cmd.link (host : Host) (args : List String) (w : World) : Outcome (List String × World) :=
  match args with
  | [] => .panic
  | command :: rest =>
    match getOptions rest with
    | .err e => .err e
    | .panic => .panic
    | .exit c => .exit c
    | .timeout => .timeout
    | .ok opt =>
      if opt.output = "" ∨ opt.importCfg = "" then .ok (args, w)
      else
        match w.files opt.importCfg with
        | none => .panic
        | some manifest =>
          let buildDir := host.Dir opt.importCfg
          let pkgPath := host.Join (host.Dir (host.Dir (host.Dir command)))
            (Base (host.Dir command))
          .ok (args, w.write opt.importCfg
            (manifest ++ stringBytes (joinMap (fun line => line)
              (Cmd.linkLines (host.Join buildDir "cov_pkg.a") pkgPath))))

/-- A manifest line without its line break: `packagefile name=path`. -/
def manifestLine (name path : String) : String :=
  "packagefile " ++ name ++ "=" ++ path

/-- The entries `link` of `cmd/funccover/main.go` appends, as pairs of a package name and
an archive path. -/
def Cmd.linkEntries (host : Host) (command importCfg : String) : List (String × String) :=
  ("covcollect", host.Join (host.Dir importCfg) "cov_pkg.a") ::
    linkArchives.map (fun name =>
      (name, host.Join (host.Dir (host.Dir (host.Dir command))) (Base (host.Dir command)) ++
        "/" ++ name ++ ".a"))

/-- A manifest with one entry, at the path `cfg`. -/
def manifestWorld : World :=
  { files := fun p =>
      if p = "cfg" then some (stringBytes "packagefile runtime=/go/pkg/runtime.a\n") else none,
    denied := fun _ => false,
    executed := [] }

/-- A link invocation that names an output and the manifest `cfg`. -/
def linkArgs : List String :=
  ["/go/tool/link", "-o", "a.out", "-importcfg", "cfg", "-buildmode=exe", "_pkg_.a"]

/-- The content of a file after a step that returned, if any. -/
def fileAfter (o : Outcome (List String × World)) (path : String) : Option (List Nat) :=
  match o with
  | .ok (_, w) => w.files path
  | _ => none

/-- The state of the host after a step that returned; the given state otherwise. -/
def worldAfter (o : Outcome (List String × World)) (w : World) : World :=
  match o with
  | .ok (_, w1) => w1
  | _ => w

/-- The name `isCompile` and `isLink` compare with the tool names: the base name with its
extension, if it has one, trimmed. -/
def strippedName (base : String) : String :=
  if Ext base ≠ "" then TrimSuffix base (Ext base) else base

/-- The base name of a command with the executable suffix `.exe` ignored, as the
specification words the classification. -/
def nameWithoutExe (command : String) : String :=
  TrimSuffix (Base command) ".exe"

/-- The bytes stored for a unit in the map `Instrument` returns. -/
def bytesOf (o : Outcome (List UnitResult)) (src : String) : Option (List Nat) :=
  match o with
  | .ok rs => (rs.find? (fun r => r.src = src)).map (fun r => r.bytes)
  | _ => none

/-- The counter indices `Instrument` gave to a unit. -/
def indicesOf (o : Outcome (List UnitResult)) (src : String) : Option (List Nat) :=
  match o with
  | .ok rs => (rs.find? (fun r => r.src = src)).map (fun r => counterIndices r.counters)
  | _ => none

/-- The names of the records the first loop of `Instrument` gathers, in order. -/
def recordNames (tk : Toolkit) (first : List (String × List Nat)) : Option (List String) :=
  match saveLoop tk first { FuncBlocks := [] } "" with
  | .ok (funcCover, _) => some (funcCover.FuncBlocks.map (fun b => b.Name))
  | _ => none

/-- Whether a token begins with a dash. -/
def beginsWithDash (s : String) : Bool :=
  s.data.head? = some '-'

/-- The field a flag names receives a value; any other flag leaves the options alone. -/
def assignFlag (flag value : String) (opt : Options) : Options :=
  if flag = "-o" then { opt with output := value }
  else if flag = "-p" then { opt with packageName := value }
  else if flag = "-importcfg" then { opt with importCfg := value }
  else opt

/-- The scan of an argument list as the claim words it: stop at the first token in flag
position that does not begin with a dash; a flag followed by a token that begins with a dash
assigns nothing and that token is the next flag; a flag followed by any other token takes it
as its value; a flag at the very end takes the empty value. -/
def scanSpec : List String → Options → Options
  | [], opt => opt
  | [a], opt => if beginsWithDash a then assignFlag a "" opt else opt
  | a :: b :: rest, opt =>
    if beginsWithDash a then
      if beginsWithDash b then scanSpec (b :: rest) opt
      else scanSpec rest (assignFlag a b opt)
    else opt

/-- The tokens of `pre` form whole steps of the scan when the token after them is `next`:
each step is a flag alone, followed by a token that begins with a dash, or a flag with its
value. The token after such a prefix stands in flag position. -/
def flagPrefix : List String → String → Bool
  | [], _ => true
  | [a], next => beginsWithDash a && beginsWithDash next
  | a :: b :: rest, next =>
    beginsWithDash a &&
      (if beginsWithDash b then flagPrefix (b :: rest) next else flagPrefix rest next)

/-- The options before any flag is read. -/
def noOptions : Options :=
  { output := "", packageName := "", importCfg := "" }

/-- A flag list in the style of a compile invocation, with a flag after the first source
argument. -/
def scanArgs : List String :=
  ["-o", "out.a", "-trimpath", "-p", "main", "-complete", "-importcfg", "cfg", "main.go",
   "-o", "other.a"]

/-- The argument list a step forwards, if it returned. -/
def forwarded (o : Outcome (List String × World)) : Option (List String) :=
  match o with
  | .ok (args, _) => some args
  | _ => none

/-- The directory part of a slash-separated path that holds a slash and no trailing slash:
a stand-in for `filepath.Dir` on such paths. -/
def sampleDir (path : String) : String :=
  String.mk ((path.data.reverse.dropWhile (fun c => c ≠ '/')).drop 1).reverse

/-- A host whose paths are already clean and absolute, with the map loops in insertion
order. -/
def sampleHost : Host :=
  { Dir := sampleDir,
    Join := fun dir name => dir ++ "/" ++ name,
    Abs := fun path => path,
    hashHex := fun _ => "ab12",
    rangeFirst := fun m => m,
    rangeSecond := fun m => m,
    rangeWrite := fun m => m }

/-- The tool's flags left at their defaults. -/
def sampleFlags : Flags :=
  { funcCoverPeriod := 0, direc := "", outputFile := "cover.out" }

/-- A host that holds the two sample units and the manifest of the build directory `/b`. -/
def compileWorld : World :=
  { files := fun p =>
      if p = "/w/lib.go" then some sampleLibUnit
      else if p = "/w/main.go" then some sampleMainUnit
      else if p = "/b/importcfg" then some (stringBytes "packagefile runtime=/go/pkg/runtime.a\n")
      else none,
    denied := fun _ => false,
    executed := [] }

/-- A compile invocation of the package `main` with two source files. -/
def compileArgs : List String :=
  ["/go/tool/compile", "-o", "/b/_pkg_.a", "-p", "main", "-importcfg", "/b/importcfg",
   "-pack", "-complete", "/w/lib.go", "/w/main.go"]

/-- A compile invocation whose source file already lies in the build directory `/b`, as a
generated file does. -/
def stagedArgs : List String :=
  ["/go/tool/compile", "-o", "/b/_pkg_.a", "-p", "main", "-importcfg", "/b/importcfg",
   "/b/main.go"]

/-- A host that holds the generated source and the manifest in `/b`. -/
def stagedWorld : World :=
  { files := fun p =>
      if p = "/b/main.go" then some sampleMainUnit
      else if p = "/b/importcfg" then some (stringBytes "packagefile runtime=/go/pkg/runtime.a\n")
      else none,
    denied := fun _ => false,
    executed := [] }

/-- The sample toolkit with the entry function reported for `/b/main.go`. -/
def stagedToolkit : Toolkit :=
  { sampleToolkit with
    SaveFuncs := fun src _ =>
      if src = "/b/main.go" then .ok ([⟨"main", 2⟩, ⟨"g", 3⟩], true) else .ok ([], false) }

/-- A compile invocation through a tool whose own path ends in `.go`. -/
def dotGoToolArgs : List String :=
  ["/go/tool/compile.go", "-o", "/b/_pkg_.a", "-p", "main", "-importcfg", "/b/importcfg",
   "/w/lib.go"]

/-- The host of `compileWorld` with a readable file at the path of that tool. -/
def dotGoToolWorld : World :=
  { compileWorld with
    files := fun p => if p = "/go/tool/compile.go" then some sampleLibUnit else compileWorld.files p }

/-! # Theorems -/

theorem parseTemplate_declTmpl : parseTemplate declTmpl = some declNodes := by decide

/-! ## Formatting and bytes -/

theorem toNat_ofNat_small (b : Nat) (h : b < 0xD800) : (Char.ofNat b).toNat = b := by
  have hv : b.isValidChar := Or.inl h
  simp [Char.ofNat, hv, Char.ofNatAux, Char.toNat, UInt32.toNat]

theorem sprintf_s (s : String) : Sprintf "%s" [.str s] = s := by
  simp [Sprintf, sprintfAux, fmtArg, extraArgs]

theorem bytes_byte_ascii (b : Nat) (h : b < 128) : Write.bytes (.byte b) = [b] := by
  simp [Write.bytes, sprintf_s, stringBytes, String.singleton, toNat_ofNat_small b (by omega),
    encodeRune, h]

/-! ## C1: `Collect` -/

/-- C1 (code at the specification's example): with names a, b, c, lines 10, 20, 30 and flags
true, false, true, `Collect` leaves `a:10:%!d(bool=true)`, `b:20:%!d(bool=false)`,
`c:30:%!d(bool=true)` in the file, one per line, because the boolean flag is formatted with
the verb `%d`; this is not the text `a:10:true`, `b:20:false`, `c:30:true` of the claim. -/
theorem Collect_example_flag_text :
    collectedText exampleCover "cover.out" =
        some "a:10:%!d(bool=true)\nb:20:%!d(bool=false)\nc:30:%!d(bool=true)\n" ∧
      collectedText exampleCover "cover.out" ≠
        some (specLine "a" 10 true ++ specLine "b" 20 false ++ specLine "c" 30 true) ∧
      specLine "a" 10 true ++ specLine "b" 20 false ++ specLine "c" 30 true =
        "a:10:true\nb:20:false\nc:30:true\n" := by
  decide

/-! ## C1: the text of `Collect` for every table -/

theorem sprintf_collect_line (name : String) (line : Nat) (count : Bool) :
    Sprintf "%s:%d:%d\n" [.str name, .uint32 line, .bool count] = codeLine name line count := by
  cases count <;>
    simp [Sprintf, sprintfAux, fmtArg, badVerb, extraArgs, codeLine, Arg.typeName,
      Arg.valueText, String.append_assoc] <;> rfl

theorem collectLoop_text (c : Cover) (counts : List Bool) :
    ∀ i, i + counts.length ≤ c.Names.length → i + counts.length ≤ c.Lines.length →
      (collectLoop c i counts).1 = codeLines (c.Names.drop i) (c.Lines.drop i) counts := by
  induction counts with
  | nil =>
    intro i _ _
    cases c.Names.drop i <;> cases c.Lines.drop i <;> rfl
  | cons b rest ih =>
    intro i h1 h2
    simp only [List.length_cons] at h1 h2
    have hn : i < c.Names.length := by omega
    have hl : i < c.Lines.length := by omega
    unfold collectLoop
    rw [List.get?_eq_get hn, List.get?_eq_get hl]
    simp only
    rw [ih (i + 1) (by omega) (by omega), sprintf_collect_line,
      List.drop_eq_getElem_cons hn, List.drop_eq_getElem_cons hl]
    rfl

/-- For every table whose names, lines and flags have one length, `Collect` on a host that
lets the file be created leaves one line per counter, in table order, each with the name, the
line and the flag in the bad-verb form `%!d(bool=...)`. -/
theorem Collect_text (c : Cover) (path : String)
    (hn : c.Names.length = c.Counts.length) (hl : c.Lines.length = c.Counts.length) :
    collectedText c path = some (codeLines c.Names c.Lines c.Counts) := by
  have h := collectLoop_text c c.Counts 0 (by omega) (by omega)
  simp only [List.drop_zero] at h
  simp [collectedText, Cover.Collect, FileSystem.create, FileSystem.append, h]

/-! ## C2: bytes kept by `addCounters` -/

theorem stripCounters_cons_counter (s : String) (k : Nat) (ws : List Write) :
    stripCounters (.counter s k :: ws) = stripCounters ws := by
  simp [stripCounters, Write.isCounter]

theorem stripCounters_cons_byte (b : Nat) (ws : List Write) :
    stripCounters (.byte b :: ws) = Write.bytes (.byte b) ++ stripCounters ws := by
  simp [stripCounters, Write.isCounter, render]

/-- On content made of ASCII bytes only, the bytes left after removing the counter-set
statements are the content, whatever the insertion positions. -/
theorem stripCounters_insertLoop_ascii (suffix : String) (events : List Nat) (first : Nat)
    (content : List Nat) (hascii : ∀ b ∈ content, b < 128) (i k : Nat) :
    stripCounters (insertLoop suffix events first i k content) = content := by
  induction content generalizing i k with
  | nil => simp [insertLoop, stripCounters, render]
  | cons b rest ih =>
    have hb : b < 128 := hascii b (List.mem_cons_self _ _)
    have hrest : ∀ x ∈ rest, x < 128 := fun x hx => hascii x (List.mem_cons_of_mem _ hx)
    unfold insertLoop
    split
    · rw [stripCounters_cons_counter, stripCounters_cons_byte, bytes_byte_ascii b hb,
        ih hrest]
      rfl
    · rw [stripCounters_cons_byte, bytes_byte_ascii b hb, ih hrest]
      rfl

/-- C2 (code at a unit with a non-ASCII comment): on the 28 bytes of a unit whose comment
holds the two-byte character U+00E9, `addCounters` writes every byte through
`string(content[i])`, so the two bytes C3 A9 come out as the four bytes C3 83 C2 A9; removing
the inserted statement leaves 30 bytes, not the original content. -/
theorem addCounters_nonAscii_not_preserved :
    ∃ ws, addCounters nonAsciiParse nonAsciiUnit "ab12" "cover.out" = .ok ws ∧
      render ws =
        stringBytes "package p\n// Ã©\nfunc f() \x7b\ncover_ab12.Counts[0] = true;\x7d\n" ∧
      stripCounters ws = stringBytes "package p\n// Ã©\nfunc f() \x7b\x7d\n" ∧
      stripCounters ws ≠ nonAsciiUnit ∧
      nonAsciiUnit.length = 28 ∧ (stripCounters ws).length = 30 := by
  refine ⟨_, rfl, ?_, ?_, ?_, ?_, ?_⟩ <;> decide

/-! ## The text of the declaration block -/

theorem execRange_lines (bs : List FuncCoverBlock) :
    execRange [.text "\n\t\t", .field "Line", .text ","] bs = some (linesText bs) := by
  induction bs with
  | nil => rfl
  | cons b bs ih =>
    simp [execRange, ih, execInner, FuncCoverBlock.field, Value.print, linesText, joinMap,
      String.append_assoc]

theorem execRange_names (bs : List FuncCoverBlock) :
    execRange [.text "\n\t\t\"", .field "Name", .text "\","] bs = some (namesText bs) := by
  induction bs with
  | nil => rfl
  | cons b bs ih =>
    simp [execRange, ih, execInner, FuncCoverBlock.field, Value.print, namesText, joinMap,
      String.append_assoc]

theorem execRange_counts (bs : List FuncCoverBlock) :
    execRange [.text "\n\t\tfalse,"] bs = some (countsText bs) := by
  induction bs with
  | nil => rfl
  | cons b bs ih =>
    simp [execRange, ih, execInner, countsText, joinMap, String.append_assoc]

theorem declCover_eq (ds : Int → String) (suffix fileName : String) (period : Int)
    (fc : FuncCover) :
    declCover ds suffix fileName period fc =
      some (declText suffix fc.FuncBlocks ++
        (if period > 0 then initText suffix (ds period) fileName else "")) := by
  unfold declCover
  rw [parseTemplate_declTmpl]
  by_cases hp : period > 0
  · simp [hp, declNodes, execNodes, DeclParams.field, Value.print, execRange_lines,
      execRange_names, execRange_counts, execInner, declText, initText, String.append_assoc]
    rfl
  · simp [hp, declNodes, execNodes, DeclParams.field, Value.print, execRange_lines,
      execRange_names, execRange_counts, execInner, declText, initText, String.append_assoc]
    rfl


/-! ## C3: counter numbering -/

theorem counterIndices_insertLoop (suffix : String) (events : List Nat) (first : Nat)
    (content : List Nat) (i k : Nat)
    (hs : (events.drop k).Pairwise (· < ·))
    (hlo : ∀ e ∈ events.drop k, i ≤ e)
    (hhi : ∀ e ∈ events.drop k, e < i + content.length) :
    counterIndices (insertLoop suffix events first i k content) =
      List.range' (first + k) (events.length - k) := by
  induction content generalizing i k with
  | nil =>
    have hnil : events.drop k = [] := by
      cases hd : events.drop k with
      | nil => rfl
      | cons e es =>
        have h1 := hlo e (by simp [hd])
        have h2 := hhi e (by simp [hd])
        simp at h2
        omega
    have hk : events.length ≤ k := by
      simpa [List.drop_eq_nil_iff] using hnil
    simp [insertLoop, counterIndices, Nat.sub_eq_zero_of_le hk]
  | cons b rest ih =>
    unfold insertLoop
    by_cases hk : k < events.length
    · have hd : events.drop k = events[k] :: events.drop (k + 1) := List.drop_eq_getElem_cons hk
      rw [hd] at hs hlo hhi
      have hs' := List.pairwise_cons.mp hs
      by_cases he : events[k]? = some i
      · rw [if_pos he]
        have hei : events[k] = i := by
          rw [List.getElem?_eq_getElem hk] at he
          exact Option.some.inj he
        simp only [counterIndices]
        rw [ih (i + 1) (k + 1) hs'.2
          (fun e hm => by have := hs'.1 e hm; omega)
          (fun e hm => by
            have := hhi e (List.mem_cons_of_mem _ hm)
            simp at this; omega)]
        have : events.length - k = (events.length - (k + 1)) + 1 := by omega
        rw [this, List.range'_succ]
        rfl
      · rw [if_neg he]
        have hei : events[k] ≠ i := by
          intro h
          apply he
          rw [List.getElem?_eq_getElem hk, h]
        have hge := hlo events[k] (List.mem_cons_self _ _)
        simp only [counterIndices]
        rw [ih (i + 1) k (by rw [hd]; exact hs)
          (fun e hm => by
            rw [hd] at hm
            rcases List.mem_cons.mp hm with h | h
            · omega
            · have := hs'.1 e h; omega)
          (fun e hm => by
            rw [hd] at hm
            have := hhi e hm
            simp at this; omega)]
    · have hk' : events.length ≤ k := Nat.le_of_not_lt hk
      have hnone : events[k]? = none := List.getElem?_eq_none hk'
      have hne : events[k]? ≠ some i := by simp [hnone]
      rw [if_neg hne]
      simp only [counterIndices]
      rw [ih (i + 1) k (by simp [List.drop_eq_nil_iff.mpr hk'])
        (by simp [List.drop_eq_nil_iff.mpr hk'])
        (by simp [List.drop_eq_nil_iff.mpr hk'])]

theorem addCountersFrom_wellLocated (PF : List Nat → Except String File) (content : List Nat)
    (suffix fileName : String) (cursor : Nat) (hw : wellLocated PF content = true) :
    addCountersFrom PF content suffix fileName cursor =
        .ok (insertLoop suffix (unitEvents PF content) cursor 0 0 content,
          cursor + (unitEvents PF content).length) ∧
      counterIndices (insertLoop suffix (unitEvents PF content) cursor 0 0 content) =
        List.range' cursor (unitEvents PF content).length := by
  unfold wellLocated at hw
  unfold addCountersFrom unitEvents
  cases hp : PF content with
  | error e => simp [hp] at hw
  | ok parsedFile =>
    rw [hp] at hw
    simp only at hw ⊢
    cases hc : collectEvents parsedFile.Decls with
    | none => simp [hc] at hw
    | some events =>
      rw [hc] at hw
      simp only [Bool.and_eq_true, decide_eq_true_eq, List.all_eq_true] at hw
      refine ⟨rfl, ?_⟩
      have := counterIndices_insertLoop suffix events cursor content 0 0
        (by simpa using hw.1) (by simp) (by simpa using hw.2)
      simpa using this

theorem counterLoop_numbering (tk : Toolkit) (h : packageInstrumentation) (fc : FuncCover)
    (mainFile : String) (himp : ∀ buf, ∃ out, tk.addImport buf = .ok out)
    (units : List (String × List Nat)) :
    ∀ cursor, (∀ u ∈ units, wellLocated tk.ParseFile u.2 = true) →
    ∃ rs, counterLoop tk h fc mainFile units cursor = .ok rs ∧
      rs.map (fun r => r.src) = units.map (fun u => u.1) ∧
      rs.flatMap (fun r => counterIndices r.counters) =
        List.range' cursor (sessionCount tk.ParseFile units) ∧
      ∀ j (hj : j < rs.length) (hu : j < units.length),
        counterIndices rs[j].counters =
          List.range' (cursor + sessionCount tk.ParseFile (units.take j))
            (unitEvents tk.ParseFile units[j].2).length := by
  induction units with
  | nil =>
    intro cursor _
    exact ⟨[], rfl, rfl, rfl, fun j hj => absurd hj (by simp)⟩
  | cons u rest ih =>
    intro cursor hloc
    obtain ⟨src, content⟩ := u
    have hw := hloc (src, content) (List.mem_cons_self _ _)
    obtain ⟨hadd, hidx⟩ :=
      addCountersFrom_wellLocated tk.ParseFile content h.suffix h.fileName cursor hw
    obtain ⟨rs, hrs, hsrc, hall, hper⟩ :=
      ih (cursor + (unitEvents tk.ParseFile content).length)
        (fun v hv => hloc v (List.mem_cons_of_mem _ hv))
    have key : ∀ (r : UnitResult), r.src = src →
        r.counters = insertLoop h.suffix (unitEvents tk.ParseFile content) cursor 0 0 content →
        (r :: rs).map (fun r => r.src) = ((src, content) :: rest).map (fun u => u.1) ∧
        (r :: rs).flatMap (fun r => counterIndices r.counters) =
          List.range' cursor (sessionCount tk.ParseFile ((src, content) :: rest)) ∧
        ∀ j (hj : j < (r :: rs).length) (hu : j < ((src, content) :: rest).length),
          counterIndices (r :: rs)[j].counters =
            List.range' (cursor + sessionCount tk.ParseFile (((src, content) :: rest).take j))
              (unitEvents tk.ParseFile ((src, content) :: rest)[j].2).length := by
      intro r hr1 hr2
      refine ⟨by simp [hr1, hsrc], ?_, ?_⟩
      · simp only [List.flatMap_cons, sessionCount, hr2, hidx, hall]
        simp
        omega
      · intro j hj hu
        cases j with
        | zero => simpa [hr2, sessionCount] using hidx
        | succ j =>
          have := hper j (by simpa using hj) (by simpa using hu)
          simp only [List.getElem_cons_succ, List.take_succ_cons, sessionCount]
          rw [this, Nat.add_assoc]
    unfold counterLoop
    rw [hadd]
    simp only
    by_cases hm : mainFile ≠ src
    · rw [if_pos hm, hrs]
      exact ⟨_, rfl, key _ rfl rfl⟩
    · rw [if_neg hm]
      obtain ⟨out, hout⟩ := himp (render (insertLoop h.suffix (unitEvents tk.ParseFile content)
        cursor 0 0 content))
      rw [hout, declCover_eq, hrs]
      exact ⟨_, rfl, key _ rfl rfl⟩

theorem saveLoop_ok (tk : Toolkit) (units : List (String × List Nat)) :
    ∀ (fc : FuncCover) (mainFile : String),
    (∀ u ∈ units, ∃ r, tk.SaveFuncs u.1 u.2 = .ok r) →
    ∃ res, saveLoop tk units fc mainFile = .ok res := by
  induction units with
  | nil => intro fc mainFile _; exact ⟨_, rfl⟩
  | cons u rest ih =>
    intro fc mainFile hsave
    obtain ⟨src, content⟩ := u
    obtain ⟨r, hr⟩ := hsave (src, content) (List.mem_cons_self _ _)
    obtain ⟨temp, flag⟩ := r
    unfold saveLoop
    simp only at hr
    rw [hr]
    exact ih _ _ (fun v hv => hsave v (List.mem_cons_of_mem _ hv))

/-- C3: in a session whose units all parse with their insertion positions strictly
increasing and inside the content, `Instrument` returns one result per unit, in visiting
order; the counter-set statements of the whole session carry, in that order, the indices
0, 1, ..., N-1, where N is the number of function declarations over all units, so each index
is used exactly once; unit number j carries the consecutive indices that start at the sum of
the counts of the units before it (the cursor it receives), and the next unit starts where it
ends. -/
theorem Instrument_counter_numbering (tk : Toolkit) (h : packageInstrumentation)
    (first second : List (String × List Nat))
    (hsave : ∀ u ∈ first, ∃ r, tk.SaveFuncs u.1 u.2 = .ok r)
    (hloc : ∀ u ∈ second, wellLocated tk.ParseFile u.2 = true)
    (himp : ∀ buf, ∃ out, tk.addImport buf = .ok out) :
    ∃ rs, Instrument tk h first second = .ok rs ∧
      rs.map (fun r => r.src) = second.map (fun u => u.1) ∧
      rs.flatMap (fun r => counterIndices r.counters) =
        List.range (sessionCount tk.ParseFile second) ∧
      ∀ j (hj : j < rs.length) (hu : j < second.length),
        counterIndices rs[j].counters =
          List.range' (sessionCount tk.ParseFile (second.take j))
            (unitEvents tk.ParseFile second[j].2).length := by
  obtain ⟨res, hres⟩ := saveLoop_ok tk first { FuncBlocks := [] } "" hsave
  obtain ⟨fc, mainFile⟩ := res
  obtain ⟨rs, hrs, hsrc, hall, hper⟩ :=
    counterLoop_numbering tk h fc mainFile himp second 0 hloc
  refine ⟨rs, ?_, hsrc, ?_, ?_⟩
  · unfold Instrument
    rw [hres]
    exact hrs
  · rw [hall, List.range_eq_range']
  · intro j hj hu
    have := hper j hj hu
    simpa using this

theorem Instrument_counter_numbering_witness :
    ∃ rs, Instrument sampleToolkit sampleSession sampleUnits sampleUnits = .ok rs ∧
      rs.map (fun r => r.src) = sampleUnits.map (fun u => u.1) ∧
      rs.flatMap (fun r => counterIndices r.counters) =
        List.range (sessionCount sampleToolkit.ParseFile sampleUnits) ∧
      ∀ j (hj : j < rs.length) (hu : j < sampleUnits.length),
        counterIndices rs[j].counters =
          List.range' (sessionCount sampleToolkit.ParseFile (sampleUnits.take j))
            (unitEvents sampleToolkit.ParseFile sampleUnits[j].2).length :=
  Instrument_counter_numbering sampleToolkit sampleSession sampleUnits sampleUnits
    (fun u _ => by simp only [sampleToolkit]; split <;> exact ⟨_, rfl⟩)
    (by decide) (fun buf => ⟨buf, rfl⟩)

theorem sample_sessionCount : sessionCount sampleToolkit.ParseFile sampleUnits = 3 := by decide

/-! ## C4: the two spellings of a flag -/

theorem splitEq_o (v : String) : splitEq ("-o=" ++ v).data [] = ["-o", v] := by
  simp [splitEq]

theorem splitEq_p (v : String) : splitEq ("-p=" ++ v).data [] = ["-p", v] := by
  simp [splitEq]

theorem splitEq_importcfg (v : String) :
    splitEq ("-importcfg=" ++ v).data [] = ["-importcfg", v] := by
  simp [splitEq]

/-- C4 (code at the one-token spelling): for every value v, `parseOption` on the single token
`-o=v`, `-p=v` or `-importcfg=v` panics, because after `strings.SplitN(arg1, "=", 2)` it reads
`splitted[2]` of a two-element slice; so `getOptions` on the one token `-o=out.a` panics,
while the two-token spelling `-o out.a` records the value and consumes two tokens. -/
theorem parseOption_equals_form_panics (v arg2 : String) (opt : Options) :
    parseOption ("-o=" ++ v) arg2 opt = none ∧
      parseOption ("-p=" ++ v) arg2 opt = none ∧
      parseOption ("-importcfg=" ++ v) arg2 opt = none ∧
      getOptions ["-o=out.a"] = .panic ∧
      getOptions ["-o", "out.a"] =
        .ok { output := "out.a", packageName := "", importCfg := "" } ∧
      parseOption "-o" "out.a" opt = some (2, { opt with output := "out.a" }) := by
  refine ⟨?_, ?_, ?_, by decide, by decide, ?_⟩
  · unfold parseOption
    rw [splitEq_o]
    simp
  · unfold parseOption
    rw [splitEq_p]
    simp
  · unfold parseOption
    rw [splitEq_importcfg]
    simp
  · simp [parseOption, splitEq]

/-! ## C5: passthrough -/

/-- A command that is neither `compile` nor `link` is run with the argument list as given,
and no file changes. -/
theorem main_passthrough_other (tk : Toolkit) (host : Host) (flags : Flags)
    (command : String) (rest : List String) (w : World)
    (hperiod : ¬ flags.funcCoverPeriod < 0) (hout : flags.outputFile ≠ "")
    (hc : isCompile command = false) (hl : isLink command = false) :
    main tk host flags (command :: rest) w =
      .ok { w with executed := w.executed ++ [command :: rest] } := by
  simp [main, hperiod, hout, hc, hl, executeCommand]

/-- A compile command on which `getOptions` returns options with a missing output path,
package name or manifest path, or with a package name other than `main`, is run with the
argument list as given, and no file changes. -/
theorem main_passthrough_compile (tk : Toolkit) (host : Host) (flags : Flags)
    (command : String) (rest : List String) (w : World) (opt : Options)
    (hperiod : ¬ flags.funcCoverPeriod < 0) (hout : flags.outputFile ≠ "")
    (hc : isCompile command = true) (hopt : getOptions rest = .ok opt)
    (hskip : opt.output = "" ∨ opt.packageName = "" ∨ opt.importCfg = "" ∨
      opt.packageName ≠ "main") :
    main tk host flags (command :: rest) w =
      .ok { w with executed := w.executed ++ [command :: rest] } := by
  have hpkg : instrumentPackage tk host flags (command :: rest) w =
      .ok (command :: rest, w) := by
    unfold instrumentPackage
    simp only [List.drop_succ_cons, List.drop_zero, hopt]
    by_cases h3 : opt.output = "" ∨ opt.packageName = "" ∨ opt.importCfg = ""
    · rw [if_pos h3]
    · rw [if_neg h3]
      have hne : opt.packageName ≠ "main" := by
        rcases hskip with h | h | h | h
        · exact absurd (Or.inl h) h3
        · exact absurd (Or.inr (Or.inl h)) h3
        · exact absurd (Or.inr (Or.inr h)) h3
        · exact h
      simp [hne]
  simp [main, hperiod, hout, hc, hpkg, executeCommand]

/-- C5 (code at a compile command for another package): on the argument list `compile`,
`-p=fmt`, a compile invocation whose package name is not `main`, `instrumentPackage` panics
inside `parseOption` for every state of the host, so `main` ends in a panic and hands nothing
to `executeCommand`; with the two-token spelling `-p fmt` the same invocation is forwarded
unchanged. -/
theorem main_compile_equals_form_panics (tk : Toolkit) (host : Host) (w : World) :
    isCompile "compile" = true ∧
      instrumentPackage tk host { funcCoverPeriod := 0, direc := "", outputFile := "cover.out" }
        ["compile", "-p=fmt"] w = .panic ∧
      main tk host { funcCoverPeriod := 0, direc := "", outputFile := "cover.out" }
        ["compile", "-p=fmt"] w = .panic ∧
      main tk host { funcCoverPeriod := 0, direc := "", outputFile := "cover.out" }
        ["compile", "-p", "fmt"] w =
          .ok { w with executed := w.executed ++ [["compile", "-p", "fmt"]] } := by
  have h1 : isCompile "compile" = true := by decide
  have h2 : getOptions ["-p=fmt"] = .panic := by decide
  have h3 : getOptions ["-p", "fmt"] =
      .ok { output := "", packageName := "fmt", importCfg := "" } := by decide
  have h4 : instrumentPackage tk host
      { funcCoverPeriod := 0, direc := "", outputFile := "cover.out" }
      ["compile", "-p=fmt"] w = .panic := by
    simp [instrumentPackage, h2]
  refine ⟨h1, h4, ?_, ?_⟩
  · simp [main, h1, h4]
  · exact main_passthrough_compile tk host _ "compile" ["-p", "fmt"] w _ (by decide)
      (by decide) h1 h3 (Or.inl rfl)

/-! ## C6: `PeriodicalCollect` with a period that is not positive -/

/-- C6: when the period text does not parse as a duration, or parses to a duration that is
zero or negative, `PeriodicalCollect` returns with the host as it found it, whatever the
number of ticks: `Collect` was not entered and no file was created or written. -/
theorem PeriodicalCollect_disabled (ParseDuration : String → Option Int) (c : Cover)
    (period : String) (args : List String) (ticks : Nat) (r : Run)
    (hp : ParseDuration period = none ∨ ∃ d, ParseDuration period = some d ∧ d ≤ 0) :
    c.PeriodicalCollect ParseDuration period args ticks r = r ∧
      (c.PeriodicalCollect ParseDuration period args ticks r).collects = r.collects ∧
      (c.PeriodicalCollect ParseDuration period args ticks r).fs.files = r.fs.files := by
  have key : c.PeriodicalCollect ParseDuration period args ticks r = r := by
    unfold Cover.PeriodicalCollect
    rcases hp with h | ⟨d, h, hd⟩
    · rw [h]
    · rw [h]
      simp [hd]
  rw [key]
  exact ⟨rfl, rfl, rfl⟩

theorem PeriodicalCollect_disabled_witness :
    exampleCover.PeriodicalCollect sampleParseDuration "0s" ["cover.out"] 5 emptyRun = emptyRun ∧
      (exampleCover.PeriodicalCollect sampleParseDuration "0s" ["cover.out"] 5 emptyRun).collects
        = emptyRun.collects ∧
      (exampleCover.PeriodicalCollect sampleParseDuration "0s" ["cover.out"] 5 emptyRun).fs.files
        = emptyRun.fs.files :=
  PeriodicalCollect_disabled sampleParseDuration exampleCover "0s" ["cover.out"] 5 emptyRun
    (Or.inr ⟨0, by decide, by decide⟩)

/-- With a positive period `Collect` is entered once per tick and the file is written. -/
theorem PeriodicalCollect_enabled_sample :
    (exampleCover.PeriodicalCollect sampleParseDuration "1s" ["cover.out"] 5 emptyRun).collects
        = 5 ∧
      (exampleCover.PeriodicalCollect sampleParseDuration "1s" ["cover.out"] 5 emptyRun).fs.files
        "cover.out" =
        some "a:10:%!d(bool=true)\nb:20:%!d(bool=false)\nc:30:%!d(bool=true)\n" := by
  decide

/-! ## C7: which declarations receive a statement -/

theorem collectEvents_braces (ds : List Decl) :
    ∀ events, collectEvents ds = some events →
      events = funcDeclBraces ds ∧ events.length = funcDeclCount ds := by
  induction ds with
  | nil =>
    intro events h
    simp [collectEvents] at h
    subst h
    exact ⟨rfl, rfl⟩
  | cons d ds ih =>
    intro events h
    cases d with
    | GenDecl => exact ih events (by simpa [collectEvents] using h)
    | BadDecl => exact ih events (by simpa [collectEvents] using h)
    | FuncDecl recv name body =>
      cases body with
      | none => simp [collectEvents] at h
      | some b =>
        cases hc : collectEvents ds with
        | none => simp [collectEvents, hc] at h
        | some es =>
          simp [collectEvents, hc] at h
          subst h
          obtain ⟨h1, h2⟩ := ih es hc
          simp [funcDeclBraces, funcDeclCount, ← h1, h2]

theorem splice_step (suffix : String) (first k i b : Nat) (es rest : List Nat)
    (hlo : ∀ e ∈ es, i + 1 ≤ e) :
    splice suffix first k i es (b :: rest) =
      .byte b :: splice suffix first k (i + 1) es rest := by
  cases es with
  | nil => simp [splice]
  | cons e es =>
    have he := hlo e (List.mem_cons_self _ _)
    have h1 : e - i = (e - (i + 1)) + 1 := by omega
    simp [splice, h1]

theorem insertLoop_eq_splice (suffix : String) (events : List Nat) (first : Nat)
    (content : List Nat) (i k : Nat)
    (hs : (events.drop k).Pairwise (· < ·))
    (hlo : ∀ e ∈ events.drop k, i ≤ e)
    (hhi : ∀ e ∈ events.drop k, e < i + content.length) :
    insertLoop suffix events first i k content =
      splice suffix first k i (events.drop k) content := by
  induction content generalizing i k with
  | nil =>
    have hnil : events.drop k = [] := by
      cases hd : events.drop k with
      | nil => rfl
      | cons e es =>
        have h1 := hlo e (by simp [hd])
        have h2 := hhi e (by simp [hd])
        simp at h2
        omega
    simp [insertLoop, hnil, splice]
  | cons b rest ih =>
    unfold insertLoop
    by_cases hk : k < events.length
    · have hd : events.drop k = events[k] :: events.drop (k + 1) := List.drop_eq_getElem_cons hk
      rw [hd] at hs hlo hhi
      have hs' := List.pairwise_cons.mp hs
      by_cases he : events[k]? = some i
      · rw [if_pos he]
        have hei : events[k] = i := by
          rw [List.getElem?_eq_getElem hk] at he
          exact Option.some.inj he
        have hlo' : ∀ e ∈ events.drop (k + 1), i + 1 ≤ e :=
          fun e hm => by have := hs'.1 e hm; omega
        rw [ih (i + 1) (k + 1) hs'.2 hlo'
          (fun e hm => by
            have := hhi e (List.mem_cons_of_mem _ hm)
            simp at this; omega)]
        rw [hd, hei]
        simp [splice, splice_step suffix first (k + 1) i b _ rest hlo']
      · rw [if_neg he]
        have hei : events[k] ≠ i := by
          intro h
          apply he
          rw [List.getElem?_eq_getElem hk, h]
        have hge := hlo events[k] (List.mem_cons_self _ _)
        have hlo' : ∀ e ∈ events.drop k, i + 1 ≤ e := fun e hm => by
          rw [hd] at hm
          rcases List.mem_cons.mp hm with h | h
          · omega
          · have := hs'.1 e h; omega
        rw [ih (i + 1) k (by rw [hd]; exact hs) hlo'
          (fun e hm => by
            rw [hd] at hm
            have := hhi e hm
            simp at this; omega)]
        rw [splice_step suffix first k i b _ rest hlo']
    · have hk' : events.length ≤ k := Nat.le_of_not_lt hk
      have hnone : events[k]? = none := List.getElem?_eq_none hk'
      have hne : events[k]? ≠ some i := by simp [hnone]
      have hnil : events.drop k = [] := List.drop_eq_nil_iff.mpr hk'
      rw [if_neg hne]
      rw [ih (i + 1) k (by simp [hnil]) (by simp [hnil]) (by simp [hnil])]
      simp [hnil, splice]

/-- C7 (counterexample): in a unit whose declarations are a method `m` and a function `f`
holding a function literal, `addCounters` inserts two statements, numbered 0 and 1: the
method receives statement 0 and consumes an index, although the unit has one top-level
function that is not a method. -/
theorem addCounters_instruments_method :
    ∃ ws, addCounters methodParse methodUnit "ab12" "cover.out" = .ok ws ∧
      counterIndices ws = [0, 1] ∧
      namedFunctionCount methodDecls = 1 ∧
      (counterIndices ws).length ≠ namedFunctionCount methodDecls ∧
      render ws = stringBytes ("package p\nfunc (t T) m() \x7b\ncover_ab12.Counts[0] = true;\x7d\n" ++
        "func f() \x7b\ncover_ab12.Counts[1] = true; g := func() \x7b\x7d; g() \x7d\n") := by
  refine ⟨_, rfl, ?_, ?_, ?_, ?_⟩ <;> decide

/-- C7 (amended): when a unit parses, every function declaration has a body and the
positions of the opening braces are strictly increasing and inside the content, `addCounters`
inserts one statement for every top-level function declaration, methods included, and for
nothing else: the statements are numbered 0, 1, ... in source order, as many as there are
function declarations, and statement k stands at the opening-brace position of declaration k;
function literals inside bodies add no statement. -/
theorem addCounters_every_funcDecl (PF : List Nat → Except String File) (content : List Nat)
    (suffix fileName : String) (parsedFile : File)
    (hp : PF content = .ok parsedFile) (hw : wellLocated PF content = true) :
    ∃ ws, addCounters PF content suffix fileName = .ok ws ∧
      counterIndices ws = List.range (funcDeclCount parsedFile.Decls) ∧
      ws = splice suffix 0 0 0 (funcDeclBraces parsedFile.Decls) content := by
  unfold wellLocated at hw
  rw [hp] at hw
  simp only at hw
  cases hc : collectEvents parsedFile.Decls with
  | none => simp [hc] at hw
  | some events =>
    rw [hc] at hw
    simp only [Bool.and_eq_true, decide_eq_true_eq, List.all_eq_true] at hw
    obtain ⟨hb, hl⟩ := collectEvents_braces parsedFile.Decls events hc
    refine ⟨insertLoop suffix events 0 0 0 content, ?_, ?_, ?_⟩
    · simp [addCounters, hp, hc]
    · have := counterIndices_insertLoop suffix events 0 content 0 0
        (by simpa using hw.1) (by simp) (by simpa using hw.2)
      rw [this, ← hl, List.range_eq_range']
      simp
    · have := insertLoop_eq_splice suffix events 0 content 0 0
        (by simpa using hw.1) (by simp) (by simpa using hw.2)
      rw [this, ← hb]
      simp

theorem addCounters_every_funcDecl_witness :
    ∃ ws, addCounters methodParse methodUnit "ab12" "cover.out" = .ok ws ∧
      counterIndices ws = List.range (funcDeclCount methodDecls) ∧
      ws = splice "ab12" 0 0 0 (funcDeclBraces methodDecls) methodUnit :=
  addCounters_every_funcDecl methodParse methodUnit "ab12" "cover.out" { Decls := methodDecls }
    rfl (by decide)

/-! ## C8: the unit that receives the declaration block -/

theorem saveLoop_mainFile (tk : Toolkit) (units : List (String × List Nat)) :
    ∀ (fc : FuncCover) (mainFile : String) (res : FuncCover × String),
    saveLoop tk units fc mainFile = .ok res →
    res.2 = mainFile ∨
      ∃ u ∈ units, u.1 = res.2 ∧ ∃ r, tk.SaveFuncs u.1 u.2 = .ok r ∧ r.2 = true := by
  induction units with
  | nil =>
    intro fc mainFile res h
    simp [saveLoop] at h
    subst h
    exact Or.inl rfl
  | cons u rest ih =>
    intro fc mainFile res h
    obtain ⟨src, content⟩ := u
    unfold saveLoop at h
    cases hs : tk.SaveFuncs src content with
    | error e => simp [hs] at h
    | ok r =>
      obtain ⟨temp, flag⟩ := r
      rw [hs] at h
      simp only at h
      rcases ih _ _ res h with h1 | ⟨v, hv, hv1, hv2⟩
      · by_cases hf : flag = true
        · right
          refine ⟨(src, content), List.mem_cons_self _ _, ?_, (temp, flag), hs, hf⟩
          rw [h1, if_pos hf]
        · left
          rw [h1, if_neg hf]
      · exact Or.inr ⟨v, List.mem_cons_of_mem _ hv, hv1, hv2⟩

theorem counterLoop_shape (tk : Toolkit) (h : packageInstrumentation) (fc : FuncCover)
    (mainFile : String) (units : List (String × List Nat)) :
    ∀ (cursor : Nat) (rs : List UnitResult),
    counterLoop tk h fc mainFile units cursor = .ok rs →
    rs.map (fun r => r.src) = units.map (fun u => u.1) ∧
    ∀ r ∈ rs,
      (r.augmented = true ↔ r.src = mainFile) ∧
      (∃ content c idx, (r.src, content) ∈ units ∧
        addCountersFrom tk.ParseFile content h.suffix h.fileName c = .ok (r.counters, idx)) ∧
      (r.augmented = false → r.bytes = render r.counters) ∧
      (r.augmented = true → ∃ imported decl,
        tk.addImport (render r.counters) = .ok imported ∧
        declCover tk.durationString h.suffix h.fileName h.period fc = some decl ∧
        r.bytes = imported ++ stringBytes decl) := by
  induction units with
  | nil =>
    intro cursor rs hrun
    simp [counterLoop] at hrun
    subst hrun
    simp
  | cons u rest ih =>
    intro cursor rs hrun
    obtain ⟨src, content⟩ := u
    unfold counterLoop at hrun
    cases hadd : addCountersFrom tk.ParseFile content h.suffix h.fileName cursor with
    | err e => simp [hadd] at hrun
    | panic => simp [hadd] at hrun
    | exit c => simp [hadd] at hrun
    | timeout => simp [hadd] at hrun
    | ok p =>
      obtain ⟨buf, index⟩ := p
      rw [hadd] at hrun
      simp only at hrun
      have lift : ∀ (rs' : List UnitResult) (r0 : UnitResult),
          counterLoop tk h fc mainFile rest index = .ok rs' →
          r0.src = src → r0.counters = buf →
          ((r0.augmented = true ↔ r0.src = mainFile) ∧
            (r0.augmented = false → r0.bytes = render r0.counters) ∧
            (r0.augmented = true → ∃ imported decl,
              tk.addImport (render r0.counters) = .ok imported ∧
              declCover tk.durationString h.suffix h.fileName h.period fc = some decl ∧
              r0.bytes = imported ++ stringBytes decl)) →
          (r0 :: rs').map (fun r => r.src) = ((src, content) :: rest).map (fun u => u.1) ∧
          ∀ r ∈ r0 :: rs',
            (r.augmented = true ↔ r.src = mainFile) ∧
            (∃ content' c idx, (r.src, content') ∈ (src, content) :: rest ∧
              addCountersFrom tk.ParseFile content' h.suffix h.fileName c =
                .ok (r.counters, idx)) ∧
            (r.augmented = false → r.bytes = render r.counters) ∧
            (r.augmented = true → ∃ imported decl,
              tk.addImport (render r.counters) = .ok imported ∧
              declCover tk.durationString h.suffix h.fileName h.period fc = some decl ∧
              r.bytes = imported ++ stringBytes decl) := by
        intro rs' r0 hrest h1 h2 h3
        obtain ⟨hsrc, hall⟩ := ih index rs' hrest
        refine ⟨by simp [h1, hsrc], ?_⟩
        intro r hr
        rcases List.mem_cons.mp hr with hr | hr
        · subst hr
          refine ⟨h3.1, ⟨content, cursor, index, ?_, ?_⟩, h3.2.1, h3.2.2⟩
          · rw [h1]; exact List.mem_cons_self _ _
          · rw [h2]; exact hadd
        · obtain ⟨a, ⟨c', cu, idx, hm, hc⟩, b, d⟩ := hall r hr
          exact ⟨a, ⟨c', cu, idx, List.mem_cons_of_mem _ hm, hc⟩, b, d⟩
      by_cases hm : mainFile ≠ src
      · rw [if_pos hm] at hrun
        cases hrest : counterLoop tk h fc mainFile rest index with
        | err e => simp [hrest] at hrun
        | panic => simp [hrest] at hrun
        | exit c => simp [hrest] at hrun
        | timeout => simp [hrest] at hrun
        | ok rs' =>
          rw [hrest] at hrun
          simp only [Outcome.ok.injEq] at hrun
          subst hrun
          refine lift rs' ⟨src, buf, _, _⟩ hrest rfl rfl ⟨?_, ?_, ?_⟩
          · simp
            exact fun h => hm h.symm
          · intro _; rfl
          · intro hcontra; simp at hcontra
      · rw [if_neg hm] at hrun
        have hm' : mainFile = src := by
          by_contra hne
          exact hm hne
        cases himp : tk.addImport (render buf) with
        | error e => simp [himp] at hrun
        | ok imported =>
          rw [himp] at hrun
          simp only at hrun
          obtain ⟨decl, hdecl⟩ : ∃ d,
              declCover tk.durationString h.suffix h.fileName h.period fc = some d :=
            ⟨_, declCover_eq _ _ _ _ _⟩
          rw [hdecl] at hrun
          simp only at hrun
          cases hrest : counterLoop tk h fc mainFile rest index with
          | err e => simp [hrest] at hrun
          | panic => simp [hrest] at hrun
          | exit c => simp [hrest] at hrun
          | timeout => simp [hrest] at hrun
          | ok rs' =>
            rw [hrest] at hrun
            simp only [Outcome.ok.injEq] at hrun
            subst hrun
            refine lift rs' ⟨src, buf, _, _⟩ hrest rfl rfl ⟨?_, ?_, ?_⟩
            · simp [hm']
            · intro hcontra; simp at hcontra
            · intro _
              exact ⟨imported, decl, himp, hdecl, rfl⟩

theorem filter_src_le_one (mainFile : String) (rs : List UnitResult)
    (hnd : (rs.map (fun r => r.src)).Nodup)
    (haug : ∀ r ∈ rs, (r.augmented = true ↔ r.src = mainFile)) :
    (rs.filter (fun r => r.augmented)).length ≤ 1 := by
  induction rs with
  | nil => simp
  | cons r rs ih =>
    have hnd' : r.src ∉ rs.map (fun r => r.src) ∧ (rs.map (fun r => r.src)).Nodup := by
      rw [List.map_cons] at hnd
      exact List.nodup_cons.mp hnd
    have ih' := ih hnd'.2 (fun x hx => haug x (List.mem_cons_of_mem _ hx))
    by_cases ha : r.augmented = true
    · have hr : r.src = mainFile := (haug r (List.mem_cons_self _ _)).mp ha
      have hnone : rs.filter (fun r => r.augmented) = [] := by
        rw [List.filter_eq_nil_iff]
        intro x hx hxa
        have hxs : x.src = mainFile := (haug x (List.mem_cons_of_mem _ hx)).mp hxa
        apply hnd'.1
        rw [hr, ← hxs]
        exact List.mem_map_of_mem _ hx
      simp [List.filter_cons, ha, hnone]
    · simp [List.filter_cons, ha]
      exact ih'

/-- C8: for a session whose unit paths are distinct and not empty, every result `Instrument`
returns has at most one unit that went through the import and declaration step; such a unit
is one for which `SaveFuncs` reported the entry function, and its bytes are the output of
the import step followed by the text of `declCover`; every other unit's bytes are exactly the
bytes `addCounters` wrote for it; and when `SaveFuncs` reports the entry function for no unit,
no unit receives a declaration block. `Instrument` does return a result when `SaveFuncs`
succeeds on every unit, every unit is well located and the import step succeeds. -/
theorem Instrument_entry_exclusive (tk : Toolkit) (h : packageInstrumentation)
    (first second : List (String × List Nat))
    (hnd : (second.map (fun u => u.1)).Nodup) (hne : ∀ u ∈ second, u.1 ≠ "") :
    (∀ rs, Instrument tk h first second = .ok rs →
      (rs.filter (fun r => r.augmented)).length ≤ 1 ∧
      (∀ r ∈ rs, r.augmented = true →
        (∃ u ∈ first, u.1 = r.src ∧ ∃ res, tk.SaveFuncs u.1 u.2 = .ok res ∧ res.2 = true) ∧
        ∃ imported decl funcCover,
          tk.addImport (render r.counters) = .ok imported ∧
          declCover tk.durationString h.suffix h.fileName h.period funcCover = some decl ∧
          r.bytes = imported ++ stringBytes decl) ∧
      (∀ r ∈ rs, r.augmented = false →
        r.bytes = render r.counters ∧
        ∃ content c idx, (r.src, content) ∈ second ∧
          addCountersFrom tk.ParseFile content h.suffix h.fileName c =
            .ok (r.counters, idx)) ∧
      ((∀ u ∈ first, ∀ res, tk.SaveFuncs u.1 u.2 = .ok res → res.2 = false) →
        ∀ r ∈ rs, r.augmented = false)) ∧
    ((∀ u ∈ first, ∃ r, tk.SaveFuncs u.1 u.2 = .ok r) →
      (∀ u ∈ second, wellLocated tk.ParseFile u.2 = true) →
      (∀ buf, ∃ out, tk.addImport buf = .ok out) →
      ∃ rs, Instrument tk h first second = .ok rs) := by
  constructor
  · intro rs hrun
    unfold Instrument at hrun
    cases hsave : saveLoop tk first { FuncBlocks := [] } "" with
    | err e => simp [hsave] at hrun
    | panic => simp [hsave] at hrun
    | exit c => simp [hsave] at hrun
    | timeout => simp [hsave] at hrun
    | ok res =>
      obtain ⟨fc, mainFile⟩ := res
      rw [hsave] at hrun
      simp only at hrun
      obtain ⟨hsrc, hall⟩ := counterLoop_shape tk h fc mainFile second 0 rs hrun
      have hmain := saveLoop_mainFile tk first _ _ _ hsave
      simp only at hmain
      have hmem : ∀ r ∈ rs, r.src ≠ "" := by
        intro r hr
        have : r.src ∈ second.map (fun u => u.1) := by
          rw [← hsrc]
          exact List.mem_map_of_mem (fun r => r.src) hr
        obtain ⟨u, hu, hu1⟩ := List.mem_map.mp this
        rw [← hu1]
        exact hne u hu
      refine ⟨?_, ?_, ?_, ?_⟩
      · exact filter_src_le_one mainFile rs (by rw [hsrc]; exact hnd)
          (fun r hr => (hall r hr).1)
      · intro r hr ha
        obtain ⟨h1, _, _, h4⟩ := hall r hr
        have hsrcm : r.src = mainFile := h1.mp ha
        refine ⟨?_, ?_⟩
        · rcases hmain with hm | hm
          · exact absurd (hsrcm.trans hm) (hmem r hr)
          · rw [hsrcm]; exact hm
        · obtain ⟨imported, decl, hi, hd, hb⟩ := h4 ha
          exact ⟨imported, decl, fc, hi, hd, hb⟩
      · intro r hr ha
        obtain ⟨_, h2, h3, _⟩ := hall r hr
        exact ⟨h3 ha, h2⟩
      · intro hnone r hr
        obtain ⟨h1, _, _, _⟩ := hall r hr
        rcases hmain with hm | ⟨u, hu, _, res, hres, hflag⟩
        · cases ha : r.augmented with
          | false => rfl
          | true => exact absurd ((h1.mp ha).trans hm) (hmem r hr)
        · have := hnone u hu res hres
          rw [this] at hflag
          exact absurd hflag (by simp)
  · intro hsave hloc himp
    obtain ⟨res, hres⟩ := saveLoop_ok tk first { FuncBlocks := [] } "" hsave
    obtain ⟨fc, mainFile⟩ := res
    obtain ⟨rs, hrs, _⟩ := counterLoop_numbering tk h fc mainFile himp second 0 hloc
    refine ⟨rs, ?_⟩
    unfold Instrument
    rw [hres]
    exact hrs

theorem Instrument_entry_exclusive_witness :
    (∀ rs, Instrument sampleToolkit sampleSession sampleUnits sampleUnits = .ok rs →
      (rs.filter (fun r => r.augmented)).length ≤ 1 ∧
      (∀ r ∈ rs, r.augmented = true →
        (∃ u ∈ sampleUnits, u.1 = r.src ∧
          ∃ res, sampleToolkit.SaveFuncs u.1 u.2 = .ok res ∧ res.2 = true) ∧
        ∃ imported decl funcCover,
          sampleToolkit.addImport (render r.counters) = .ok imported ∧
          declCover sampleToolkit.durationString sampleSession.suffix sampleSession.fileName
            sampleSession.period funcCover = some decl ∧
          r.bytes = imported ++ stringBytes decl) ∧
      (∀ r ∈ rs, r.augmented = false →
        r.bytes = render r.counters ∧
        ∃ content c idx, (r.src, content) ∈ sampleUnits ∧
          addCountersFrom sampleToolkit.ParseFile content sampleSession.suffix
            sampleSession.fileName c = .ok (r.counters, idx)) ∧
      ((∀ u ∈ sampleUnits, ∀ res, sampleToolkit.SaveFuncs u.1 u.2 = .ok res → res.2 = false) →
        ∀ r ∈ rs, r.augmented = false)) ∧
    ((∀ u ∈ sampleUnits, ∃ r, sampleToolkit.SaveFuncs u.1 u.2 = .ok r) →
      (∀ u ∈ sampleUnits, wellLocated sampleToolkit.ParseFile u.2 = true) →
      (∀ buf, ∃ out, sampleToolkit.addImport buf = .ok out) →
      ∃ rs, Instrument sampleToolkit sampleSession sampleUnits sampleUnits = .ok rs) :=
  Instrument_entry_exclusive sampleToolkit sampleSession sampleUnits sampleUnits
    (by decide) (by decide)

/-- The result of `Instrument` on the sample session: the unit with `main` is the one that
receives the declaration block. -/
theorem Instrument_sample_augmented :
    ∃ rs, Instrument sampleToolkit sampleSession sampleUnits sampleUnits = .ok rs ∧
      rs.map (fun r => (r.src, r.augmented)) = [("/w/lib.go", false), ("/w/main.go", true)] := by
  refine ⟨_, rfl, ?_⟩
  decide

/-! ## C9: the initialization routine -/

theorem digitChar_ne_paren (m : Nat) (h : m < 10) : Nat.digitChar m ≠ '(' := by
  interval_cases m <;> decide

theorem toDigitsCore_no_paren (fuel : Nat) :
    ∀ (n : Nat) (ds : List Char), '(' ∉ ds → '(' ∉ Nat.toDigitsCore 10 fuel n ds := by
  induction fuel with
  | zero => intro n ds h; simpa [Nat.toDigitsCore] using h
  | succ fuel ih =>
    intro n ds h
    have hd : '(' ∉ Nat.digitChar (n % 10) :: ds := by
      intro hm
      rcases List.mem_cons.mp hm with h1 | h1
      · exact digitChar_ne_paren _ (Nat.mod_lt _ (by decide)) h1.symm
      · exact h h1
    rw [Nat.toDigitsCore]
    split_ifs
    · exact hd
    · exact ih _ _ hd

theorem toString_nat_no_paren (n : Nat) : '(' ∉ (toString n).data := by
  show '(' ∉ (Nat.repr n).data
  unfold Nat.repr Nat.toDigits
  exact toDigitsCore_no_paren _ _ _ (by simp)

theorem joinMap_no_paren {α : Type} (f : α → String) (l : List α)
    (h : ∀ a ∈ l, '(' ∉ (f a).data) : '(' ∉ (joinMap f l).data := by
  induction l with
  | nil => simp [joinMap]
  | cons a l ih =>
    simp only [joinMap, String.data_append, List.mem_append, not_or]
    exact ⟨h a (List.mem_cons_self _ _), ih (fun x hx => h x (List.mem_cons_of_mem _ hx))⟩

theorem declText_no_paren (suffix : String) (bs : List FuncCoverBlock)
    (hs : '(' ∉ suffix.data) (hn : ∀ b ∈ bs, '(' ∉ b.Name.data) :
    '(' ∉ (declText suffix bs).data := by
  have h1 := toString_nat_no_paren bs.length
  have h2 : '(' ∉ (linesText bs).data := by
    apply joinMap_no_paren
    intro b _
    have := toString_nat_no_paren b.Line
    simp [String.data_append, this]
  have h3 : '(' ∉ (namesText bs).data := by
    apply joinMap_no_paren
    intro b hb
    have := hn b hb
    simp [String.data_append, this]
  have h4 : '(' ∉ (countsText bs).data := by
    apply joinMap_no_paren
    intro b _
    decide
  simp [declText, String.data_append, hs, h1, h2, h3, h4]

/-- C9: for every suffix, file name, record list and period, the text `declCover` writes is
the declaration of `cover_<suffix>` followed, exactly when the period is strictly positive, by
the routine `func init()` that starts `cover_<suffix>.PeriodicalCollect` with the period text
and the output file name; when the period is zero (or negative) the text ends with the
declaration. When the suffix and the record names hold no opening parenthesis (a hex digest,
Go identifiers), the text contains `func init()` if and only if the period is strictly
positive. -/
theorem declCover_init_iff (ds : Int → String) (suffix fileName : String) (period : Int)
    (fc : FuncCover) :
    ∃ out, declCover ds suffix fileName period fc = some out ∧
      (0 < period → out = declText suffix fc.FuncBlocks ++
        ("\nfunc init() \x7b\n    go cover_" ++ suffix ++ ".PeriodicalCollect(\"" ++ ds period ++
          "\",  \"" ++ fileName ++ "\")\n\x7d")) ∧
      (period ≤ 0 → out = declText suffix fc.FuncBlocks) ∧
      ('(' ∉ suffix.data → (∀ b ∈ fc.FuncBlocks, '(' ∉ b.Name.data) →
        ("func init()".data <:+: out.data ↔ 0 < period)) := by
  refine ⟨_, declCover_eq ds suffix fileName period fc, ?_, ?_, ?_⟩
  · intro hp
    simp [hp, initText]
  · intro hp
    have : ¬ period > 0 := by omega
    simp [this]
  · intro hs hn
    by_cases hp : period > 0
    · simp only [hp, if_true, iff_true]
      refine ⟨(declText suffix fc.FuncBlocks).data ++ ['\n'],
        (" \x7b\n    go cover_" ++ suffix ++ ".PeriodicalCollect(\"" ++ ds period ++
          "\",  \"" ++ fileName ++ "\")\n\x7d").data, ?_⟩
      simp [initText, String.data_append]
    · simp only [hp, if_false, iff_false, String.append_empty]
      intro hin
      have hmem : '(' ∈ "func init()".data := by decide
      exact declText_no_paren suffix fc.FuncBlocks hs hn (hin.subset hmem)

theorem declCover_init_iff_witness :
    ∃ out, declCover (fun _ => "500ms") "ab12" "cover.out" 500000000 sampleBlocks = some out ∧
      (0 < (500000000 : Int) → out = declText "ab12" sampleBlocks.FuncBlocks ++
        ("\nfunc init() \x7b\n    go cover_" ++ "ab12" ++ ".PeriodicalCollect(\"" ++
          (fun _ => "500ms") (500000000 : Int) ++ "\",  \"" ++ "cover.out" ++ "\")\n\x7d")) ∧
      ((500000000 : Int) ≤ 0 → out = declText "ab12" sampleBlocks.FuncBlocks) ∧
      ('(' ∉ "ab12".data → (∀ b ∈ sampleBlocks.FuncBlocks, '(' ∉ b.Name.data) →
        ("func init()".data <:+: out.data ↔ 0 < (500000000 : Int))) :=
  declCover_init_iff (fun _ => "500ms") "ab12" "cover.out" 500000000 sampleBlocks

set_option maxRecDepth 100000 in
/-- The text of `declCover` for two records, with and without a period. -/
theorem declCover_sample_texts :
    declCover (fun _ => "500ms") "ab12" "cover.out" 500000000 sampleBlocks = some
      ("\nvar cover_ab12 = covcollect.Cover \x7b\n\tLen: 2,\n\tLines: []uint32\x7b " ++
       "\n\t\t2,\n\t\t3,\n\t\x7d,\n\tNames: []string\x7b \n\t\t\"main\",\n\t\t\"g\",\n\t\x7d," ++
       "\n\tCounts: []bool\x7b \n\t\tfalse,\n\t\tfalse,\n\t\x7d,\n\x7d\n" ++
       "\nfunc init() \x7b\n    go cover_ab12.PeriodicalCollect(\"500ms\",  \"cover.out\")\n\x7d") ∧
    declCover (fun _ => "0s") "ab12" "cover.out" 0 sampleBlocks = some
      ("\nvar cover_ab12 = covcollect.Cover \x7b\n\tLen: 2,\n\tLines: []uint32\x7b " ++
       "\n\t\t2,\n\t\t3,\n\t\x7d,\n\tNames: []string\x7b \n\t\t\"main\",\n\t\t\"g\",\n\t\x7d," ++
       "\n\tCounts: []bool\x7b \n\t\tfalse,\n\t\tfalse,\n\t\x7d,\n\x7d\n") := by
  decide

/-! ## C10: the declared table -/

theorem joinMap_map {α β : Type} (f : β → String) (g : α → β) (l : List α) :
    joinMap f (l.map g) = joinMap (fun a => f (g a)) l := by
  induction l with
  | nil => rfl
  | cons a l ih => simp [joinMap, ih]

theorem joinMap_replicate_false (bs : List FuncCoverBlock) :
    joinMap (fun b => "\n\t\t" ++ (if b = true then "true" else "false") ++ ",")
      (List.replicate bs.length false) = countsText bs := by
  induction bs with
  | nil => rfl
  | cons b bs ih =>
    simp only [List.length_cons, List.replicate_succ, joinMap, countsText] at ih ⊢
    rw [ih]
    rfl

theorem coverLiteral_declaredCover (suffix : String) (bs : List FuncCoverBlock) :
    coverLiteral suffix (declaredCover bs) = declText suffix bs := by
  simp only [coverLiteral, declaredCover, joinMap_map, joinMap_replicate_false, declText,
    linesText, namesText]
  rfl

theorem collectLoop_no_panic (c : Cover) (counts : List Bool) :
    ∀ i, i + counts.length ≤ c.Names.length → i + counts.length ≤ c.Lines.length →
      (collectLoop c i counts).2 = false := by
  induction counts with
  | nil => intro i _ _; rfl
  | cons b rest ih =>
    intro i h1 h2
    simp only [List.length_cons] at h1 h2
    have hn : i < c.Names.length := by omega
    have hl : i < c.Lines.length := by omega
    unfold collectLoop
    rw [List.get?_eq_get hn, List.get?_eq_get hl]
    simp only
    exact ih (i + 1) (by omega) (by omega)

/-- C10: for every list of n function records, the text `declCover` writes starts with the
declaration of `cover_<suffix>` as the composite literal of the `Cover` value whose `Len` is
n, whose `Lines` and `Names` are the lines and names of the records in order and whose
`Counts` are n times false; this value has `Names`, `Lines` and `Counts` of the common length
n, equal to `Len`, and the loop of `Collect` over it indexes `Names[i]` and `Lines[i]` without
a panic. -/
theorem declCover_declares_table (ds : Int → String) (suffix fileName : String)
    (period : Int) (fc : FuncCover) :
    ∃ tail, declCover ds suffix fileName period fc =
        some (coverLiteral suffix (declaredCover fc.FuncBlocks) ++ tail) ∧
      (declaredCover fc.FuncBlocks).Len = fc.FuncBlocks.length ∧
      (declaredCover fc.FuncBlocks).Lines = fc.FuncBlocks.map (fun b => b.Line) ∧
      (declaredCover fc.FuncBlocks).Names = fc.FuncBlocks.map (fun b => b.Name) ∧
      (declaredCover fc.FuncBlocks).Counts = List.replicate fc.FuncBlocks.length false ∧
      (declaredCover fc.FuncBlocks).Lines.length = fc.FuncBlocks.length ∧
      (declaredCover fc.FuncBlocks).Names.length = fc.FuncBlocks.length ∧
      (declaredCover fc.FuncBlocks).Counts.length = fc.FuncBlocks.length ∧
      (collectLoop (declaredCover fc.FuncBlocks) 0 (declaredCover fc.FuncBlocks).Counts).2 =
        false := by
  refine ⟨if period > 0 then initText suffix (ds period) fileName else "",
    ?_, rfl, rfl, rfl, rfl, ?_, ?_, ?_, ?_⟩
  · rw [declCover_eq, coverLiteral_declaredCover]
  · simp [declaredCover]
  · simp [declaredCover]
  · simp [declaredCover]
  · apply collectLoop_no_panic <;> simp [declaredCover]

set_option maxRecDepth 100000 in
/-- The composite literal for two records. -/
theorem coverLiteral_sample :
    coverLiteral "ab12" (declaredCover sampleBlocks.FuncBlocks) =
      "\nvar cover_ab12 = covcollect.Cover \x7b\n\tLen: 2,\n\tLines: []uint32\x7b " ++
       "\n\t\t2,\n\t\t3,\n\t\x7d,\n\tNames: []string\x7b \n\t\t\"main\",\n\t\t\"g\",\n\t\x7d," ++
       "\n\tCounts: []bool\x7b \n\t\tfalse,\n\t\tfalse,\n\t\x7d,\n\x7d\n" := by
  decide


/-! ## C11: manifest patching -/

theorem stringBytes_append (a b : String) :
    stringBytes (a ++ b) = stringBytes a ++ stringBytes b := by
  simp [stringBytes, String.data_append, List.flatMap_append]

/-- The link step of `main.go` leaves the manifest as the prior content followed by the one
text `covcollectEntry`, and forwards the arguments unchanged. -/
theorem link_appends_entry (args : List String) (w : World) (opt : Options)
    (manifest : List Nat) (hopt : getOptions (args.drop 1) = .ok opt)
    (ho : opt.output ≠ "") (hc : opt.importCfg ≠ "")
    (hm : w.files opt.importCfg = some manifest) :
    link args w =
      .ok (args, w.write opt.importCfg (manifest ++ stringBytes covcollectEntry)) := by
  unfold link
  rw [hopt]
  simp [ho, hc, hm]

set_option maxRecDepth 100000 in
/-- C11 (code at a link invocation): on a manifest that ends in a line break, the link step
of `main.go` appends the text `packagefile covcollect=...pkg.a` without a line break, so
the manifest no longer ends in a line break, and a second link step glues its text to the
first: the last line reads `packagefile covcollect=...pkg.apackagefile covcollect=...pkg.a`.
The prior content is kept as a prefix both times. -/
theorem link_appends_unterminated_text :
    fileAfter (link linkArgs manifestWorld) "cfg" =
        some (stringBytes ("packagefile runtime=/go/pkg/runtime.a\n" ++
          "packagefile covcollect=/Users/muratekici/Desktop/google/testdata/sample3/pkg.a")) ∧
      ((fileAfter (link linkArgs manifestWorld) "cfg").getD []).getLast? ≠ some 10 ∧
      fileAfter (link linkArgs (worldAfter (link linkArgs manifestWorld) manifestWorld)) "cfg" =
        some (stringBytes ("packagefile runtime=/go/pkg/runtime.a\n" ++
          "packagefile covcollect=/Users/muratekici/Desktop/google/testdata/sample3/pkg.a" ++
          "packagefile covcollect=/Users/muratekici/Desktop/google/testdata/sample3/pkg.a")) := by
  decide

set_option maxRecDepth 100000 in
/-- The compile step of `main.go` patches the manifest the same way as its link step: after
the sample compile invocation the manifest is the prior content followed by the text
`packagefile covcollect=...pkg.a` without a line break. -/
theorem instrumentPackage_appends_unterminated_text :
    fileAfter (instrumentPackage sampleToolkit sampleHost sampleFlags compileArgs compileWorld)
        "/b/importcfg" =
      some (stringBytes ("packagefile runtime=/go/pkg/runtime.a\n" ++
        "packagefile covcollect=/Users/muratekici/Desktop/google/testdata/sample3/pkg.a")) := by
  decide

/-- The link step of `cmd/funccover/main.go` leaves the manifest as the prior content
followed by 28 complete lines `packagefile name=path`, each ended by a line break. -/
theorem Cmd_link_appends_lines (host : Host) (command : String) (rest : List String)
    (w : World) (opt : Options) (manifest : List Nat) (hopt : getOptions rest = .ok opt)
    (ho : opt.output ≠ "") (hc : opt.importCfg ≠ "")
    (hm : w.files opt.importCfg = some manifest) :
    Cmd.link host (command :: rest) w =
        .ok (command :: rest, w.write opt.importCfg (manifest ++ stringBytes
          (joinMap (fun e => manifestLine e.1 e.2 ++ "\n")
            (Cmd.linkEntries host command opt.importCfg)))) ∧
      (Cmd.linkEntries host command opt.importCfg).length = 28 := by
  constructor
  · unfold Cmd.link
    simp only [hopt]
    simp [ho, hc, hm, Cmd.linkLines, Cmd.linkEntries, joinMap, joinMap_map, manifestLine,
      String.append_assoc]
  · simp [Cmd.linkEntries, linkArchives]

/-- Two link steps of `cmd/funccover/main.go` in a row append the same lines twice. -/
theorem Cmd_link_twice (host : Host) (command : String) (rest : List String)
    (w : World) (opt : Options) (manifest : List Nat) (hopt : getOptions rest = .ok opt)
    (ho : opt.output ≠ "") (hc : opt.importCfg ≠ "")
    (hm : w.files opt.importCfg = some manifest) :
    fileAfter (Cmd.link host (command :: rest)
        (worldAfter (Cmd.link host (command :: rest) w) w)) opt.importCfg =
      some (manifest ++
        stringBytes (joinMap (fun e => manifestLine e.1 e.2 ++ "\n")
          (Cmd.linkEntries host command opt.importCfg)) ++
        stringBytes (joinMap (fun e => manifestLine e.1 e.2 ++ "\n")
          (Cmd.linkEntries host command opt.importCfg))) := by
  have h1 := (Cmd_link_appends_lines host command rest w opt manifest hopt ho hc hm).1
  rw [h1]
  simp only [worldAfter]
  have h2 := (Cmd_link_appends_lines host command rest
    (w.write opt.importCfg (manifest ++ stringBytes
      (joinMap (fun e => manifestLine e.1 e.2 ++ "\n")
        (Cmd.linkEntries host command opt.importCfg)))) opt
    (manifest ++ stringBytes
      (joinMap (fun e => manifestLine e.1 e.2 ++ "\n")
        (Cmd.linkEntries host command opt.importCfg))) hopt ho hc
    (by simp [World.write])).1
  rw [h2]
  simp [fileAfter, World.write]

/-! ## C12: classification of the command -/

theorem extScan_nil_of_clean (l acc : List Char) (hd : '.' ∉ l) (hs : '/' ∉ l) :
    extScan l acc = [] := by
  induction l generalizing acc with
  | nil => rfl
  | cons c rest ih =>
    have hc1 : c ≠ '/' := fun h => hs (h ▸ List.mem_cons_self _ _)
    have hc2 : c ≠ '.' := fun h => hd (h ▸ List.mem_cons_self _ _)
    simp only [extScan, hc1, hc2, if_false]
    exact ih _ (fun h => hd (List.mem_cons_of_mem _ h)) (fun h => hs (List.mem_cons_of_mem _ h))

theorem extScan_found (x rest acc : List Char) (hd : '.' ∉ x) (hs : '/' ∉ x) :
    extScan (x ++ '.' :: rest) acc = '.' :: (x.reverse ++ acc) := by
  induction x generalizing acc with
  | nil => simp [extScan]
  | cons c x ih =>
    have hc1 : c ≠ '/' := fun h => hs (h ▸ List.mem_cons_self _ _)
    have hc2 : c ≠ '.' := fun h => hd (h ▸ List.mem_cons_self _ _)
    simp only [List.cons_append, extScan, hc1, hc2, if_false]
    change extScan (x ++ '.' :: rest) (c :: acc) = _
    rw [ih _ (fun h => hd (List.mem_cons_of_mem _ h)) (fun h => hs (List.mem_cons_of_mem _ h))]
    simp

theorem extScan_cases (l : List Char) :
    ∀ acc, (extScan l acc = [] ∧ ∀ x rest, l = x ++ '.' :: rest → '.' ∈ x ∨ '/' ∈ x) ∨
      ∃ x rest, l = x ++ '.' :: rest ∧ '.' ∉ x ∧ '/' ∉ x ∧
        extScan l acc = '.' :: (x.reverse ++ acc) := by
  induction l with
  | nil =>
    intro acc
    left
    refine ⟨rfl, ?_⟩
    intro x rest h
    simp at h
  | cons c l ih =>
    intro acc
    by_cases hc1 : c = '/'
    · left
      refine ⟨by simp [extScan, hc1], ?_⟩
      intro x rest h
      cases x with
      | nil => simp [hc1] at h
      | cons y x =>
        simp only [List.cons_append, List.cons.injEq] at h
        right
        rw [← h.1, hc1]
        exact List.mem_cons_self _ _
    · by_cases hc2 : c = '.'
      · right
        exact ⟨[], l, by simp [hc2], by simp, by simp, by simp [extScan, hc2]⟩
      · rcases ih (c :: acc) with ⟨h1, h2⟩ | ⟨x, rest, h1, h2, h3, h4⟩
        · left
          refine ⟨by simp [extScan, hc1, hc2, h1], ?_⟩
          intro x rest h
          cases x with
          | nil => simp at h; exact absurd h.1 hc2
          | cons y x =>
            simp only [List.cons_append, List.cons.injEq] at h
            rcases h2 x rest h.2 with h | h
            · exact Or.inl (List.mem_cons_of_mem _ h)
            · exact Or.inr (List.mem_cons_of_mem _ h)
        · right
          refine ⟨c :: x, rest, by simp [h1], ?_, ?_, ?_⟩
          · intro h
            rcases List.mem_cons.mp h with h | h
            · exact hc2 h.symm
            · exact h2 h
          · intro h
            rcases List.mem_cons.mp h with h | h
            · exact hc1 h.symm
            · exact h3 h
          · simp [extScan, hc1, hc2, h4]

theorem isCompile_eq (command : String) :
    isCompile command = decide (strippedName (Base command) = "compile") := by
  simp only [isCompile, strippedName]
  split <;> simp_all

theorem isLink_eq (command : String) :
    isLink command = decide (strippedName (Base command) = "link") := by
  simp only [isLink, strippedName]
  split <;> simp_all

theorem strippedName_eq_iff (b t : String) (hd : '.' ∉ t.data) (hs : '/' ∉ t.data) :
    strippedName b = t ↔
      b = t ∨ ∃ x : List Char, '.' ∉ x ∧ '/' ∉ x ∧ b.data = t.data ++ '.' :: x := by
  constructor
  · intro h
    rcases extScan_cases b.data.reverse [] with ⟨h1, _⟩ | ⟨xr, restr, h1, h2, h3, h4⟩
    · left
      have hext : Ext b = "" := by simp [Ext, h1]
      simpa [strippedName, hext] using h
    · right
      have hb : b.data = restr.reverse ++ '.' :: xr.reverse := by
        have := congrArg List.reverse h1
        simpa using this
      have hext : Ext b = String.mk ('.' :: xr.reverse) := by simp [Ext, h4]
      have hne : Ext b ≠ "" := by
        rw [hext]
        intro hcontra
        have := congrArg String.data hcontra
        simp at this
      have hsuf : HasSuffix b (Ext b) = true := by
        rw [hext]
        simp only [HasSuffix, h1, List.reverse_cons, List.reverse_reverse]
        rw [List.isPrefixOf_iff_prefix]
        exact ⟨restr, by simp⟩
      have htrim : TrimSuffix b (Ext b) = String.mk restr.reverse := by
        simp only [TrimSuffix, hsuf, if_true]
        rw [hext, hb]
        simp
      refine ⟨xr.reverse, by simpa using h2, by simpa using h3, ?_⟩
      have : String.mk restr.reverse = t := by
        simpa [strippedName, hne, htrim] using h
      rw [hb, ← this]
  · rintro (h | ⟨x, hx1, hx2, hb⟩)
    · subst h
      have h1 : extScan b.data.reverse [] = [] :=
        extScan_nil_of_clean _ _ (by simpa using hd) (by simpa using hs)
      have hext : Ext b = "" := by simp [Ext, h1]
      simp [strippedName, hext]
    · have hrev : b.data.reverse = x.reverse ++ '.' :: t.data.reverse := by
        rw [hb]; simp
      have h4 : extScan b.data.reverse [] = '.' :: x := by
        rw [hrev, extScan_found _ _ _ (by simpa using hx1) (by simpa using hx2)]
        simp
      have hext : Ext b = String.mk ('.' :: x) := by simp [Ext, h4]
      have hne : Ext b ≠ "" := by
        rw [hext]
        intro hcontra
        have := congrArg String.data hcontra
        simp at this
      have hsuf : HasSuffix b (Ext b) = true := by
        rw [hext]
        simp only [HasSuffix, hrev, List.reverse_cons]
        rw [List.isPrefixOf_iff_prefix]
        exact ⟨t.data.reverse, by simp⟩
      simp only [strippedName, hne, ne_eq, not_false_eq_true, if_true, TrimSuffix, hsuf]
      rw [hext, hb]
      simp

/-- C12 (counterexample): the command `/go/tool/compile.txt` is classified as compile and
`link.old` as link, although their base names with the executable suffix `.exe` ignored are
`compile.txt` and `link.old`, other names that only begin with `compile` and `link`. -/
theorem isCompile_ignores_any_extension :
    isCompile "/go/tool/compile.txt" = true ∧
      nameWithoutExe "/go/tool/compile.txt" = "compile.txt" ∧
      ¬ (isCompile "/go/tool/compile.txt" = true ↔
          nameWithoutExe "/go/tool/compile.txt" = "compile") ∧
      isLink "link.old" = true ∧ nameWithoutExe "link.old" = "link.old" ∧
      ¬ (isLink "link.old" = true ↔ nameWithoutExe "link.old" = "link") := by
  decide

/-- C12 (amended): for every command path, `isCompile` returns true exactly when the base
name is `compile` or is `compile.` followed by an extension without a further dot (`.exe`
or any other), and `isLink` returns true exactly when the base name is `link` or `link.`
followed by such an extension; so a base name that goes on after `compile` or `link` with
anything but a dot is neither, and no command is both. -/
theorem isCompile_isLink_iff (command : String) :
    (isCompile command = true ↔
      Base command = "compile" ∨
        ∃ x : List Char, '.' ∉ x ∧ '/' ∉ x ∧ (Base command).data = "compile".data ++ '.' :: x) ∧
    (isLink command = true ↔
      Base command = "link" ∨
        ∃ x : List Char, '.' ∉ x ∧ '/' ∉ x ∧ (Base command).data = "link".data ++ '.' :: x) ∧
    ¬ (isCompile command = true ∧ isLink command = true) := by
  refine ⟨?_, ?_, ?_⟩
  · rw [isCompile_eq, decide_eq_true_iff]
    exact strippedName_eq_iff _ _ (by decide) (by decide)
  · rw [isLink_eq, decide_eq_true_iff]
    exact strippedName_eq_iff _ _ (by decide) (by decide)
  · rw [isCompile_eq, isLink_eq, decide_eq_true_iff, decide_eq_true_iff]
    rintro ⟨h1, h2⟩
    rw [h1] at h2
    exact absurd h2 (by decide)

/-- Sample classifications: the plain names, the names with `.exe`, and names that only
begin with a tool name. -/
theorem classification_samples :
    isCompile "/go/pkg/tool/linux_amd64/compile" = true ∧
      isCompile "C:/go/pkg/tool/compile.exe" = true ∧
      isLink "/go/pkg/tool/linux_amd64/link" = true ∧ isLink "link.exe" = true ∧
      isCompile "/go/tool/compiler" = false ∧ isLink "/go/tool/linker" = false ∧
      isCompile "/go/tool/asm" = false ∧ isLink "/go/tool/asm" = false ∧
      isCompile "/go/tool/link" = false ∧ isLink "/go/tool/compile" = false := by
  decide

/-! ## C13: dependence on the order of the map -/

set_option maxRecDepth 100000 in
/-- C13 (code at a session of two units): `Instrument` ranges twice over the map
`h.parsedFiles`, and its result follows the orders of the two loops. With both loops in the
order lib.go, main.go the function `k` of lib.go carries index 0; with both in the order
main.go, lib.go it carries index 2, so the bytes of lib.go differ between two runs on the same
units. With the first loop in the order lib.go, main.go and the second in the order main.go,
lib.go the declaration block lists the names k, main, g while the indices 0 and 1 go to
main.go and 2 to lib.go: index 0 is named `k` and is set in `main`. -/
theorem Instrument_depends_on_map_order :
    sampleUnits.reverse.Perm sampleUnits ∧
      indicesOf (Instrument sampleToolkit sampleSession sampleUnits sampleUnits) "/w/lib.go" =
        some [0] ∧
      indicesOf (Instrument sampleToolkit sampleSession sampleUnits.reverse sampleUnits.reverse)
        "/w/lib.go" = some [2] ∧
      bytesOf (Instrument sampleToolkit sampleSession sampleUnits sampleUnits) "/w/lib.go" =
        some (stringBytes
          "package main\nfunc k() \x7b\ncover_ab12.Counts[0] = true;\x7d\n") ∧
      bytesOf (Instrument sampleToolkit sampleSession sampleUnits.reverse sampleUnits.reverse)
        "/w/lib.go" = some (stringBytes
          "package main\nfunc k() \x7b\ncover_ab12.Counts[2] = true;\x7d\n") ∧
      bytesOf (Instrument sampleToolkit sampleSession sampleUnits sampleUnits) "/w/lib.go" ≠
        bytesOf (Instrument sampleToolkit sampleSession sampleUnits.reverse sampleUnits.reverse)
          "/w/lib.go" ∧
      recordNames sampleToolkit sampleUnits = some ["k", "main", "g"] ∧
      indicesOf (Instrument sampleToolkit sampleSession sampleUnits sampleUnits.reverse)
        "/w/main.go" = some [0, 1] ∧
      indicesOf (Instrument sampleToolkit sampleSession sampleUnits sampleUnits.reverse)
        "/w/lib.go" = some [2] := by
  refine ⟨?_, ?_, ?_, ?_, ?_, ?_, ?_, ?_, ?_⟩
  · exact List.reverse_perm _
  all_goals decide

/-! ## C15: the scan of `getOptions` -/

theorem splitEq_no_eq (l : List Char) :
    ∀ acc, '=' ∉ l → splitEq l acc = [String.mk (acc.reverse ++ l)] := by
  induction l with
  | nil => intro acc _; simp [splitEq]
  | cons c l ih =>
    intro acc h
    have hc : c ≠ '=' := fun e => h (e ▸ List.mem_cons_self _ _)
    simp only [splitEq, hc, if_false]
    rw [ih (c :: acc) (fun hm => h (List.mem_cons_of_mem _ hm))]
    simp

theorem parseOption_no_eq (a b : String) (opt : Options) (h : '=' ∉ a.data) :
    parseOption a b opt =
      if b = "" ∨ beginsWithDash b = false then some (2, assignFlag a b opt)
      else some (1, opt) := by
  unfold parseOption
  simp only [splitEq_no_eq a.data [] h, List.length_singleton]
  simp only [show ¬ ((1 : Nat) = 2) by decide, if_false, beginsWithDash, assignFlag,
    decide_eq_false_iff_not, ne_eq]
  split <;> (repeat' split) <;> rfl

theorem parseOption_step (arg arg2 : String) (opt opt1 : Options) (k : Nat)
    (h : parseOption arg arg2 opt = some (k, opt1)) : k = 1 ∨ k = 2 := by
  unfold parseOption at h
  simp only at h
  repeat' split at h
  all_goals first
    | (simp only [Option.some.injEq, Prod.mk.injEq] at h; omega)
    | simp at h

theorem getOptionsLoop_done (args : List String) (fuel index : Nat) (opt : Options)
    (h : args.length ≤ index) : getOptionsLoop args fuel index opt = .ok opt := by
  unfold getOptionsLoop
  simp [Nat.not_lt.mpr h]

theorem head_of_beginsWithDash (a : String) (ha : a ≠ "") :
    ∃ c, a.data.head? = some c ∧ (beginsWithDash a = true ↔ c = '-') := by
  cases hd : a.data with
  | nil =>
    exfalso
    apply ha
    exact String.ext hd
  | cons c l =>
    refine ⟨c, rfl, ?_⟩
    simp [beginsWithDash, hd]

theorem getOptionsLoop_refines (n : Nat) :
    ∀ (suf : List String), suf.length ≤ n → ∀ (pre : List String) (fuel : Nat) (opt : Options),
      (∀ a ∈ suf, a ≠ "" ∧ '=' ∉ a.data) → suf.length ≤ fuel →
      getOptionsLoop (pre ++ suf) fuel pre.length opt = .ok (scanSpec suf opt) := by
  induction n with
  | zero =>
    intro suf hn pre fuel opt _ _
    have : suf = [] := List.length_eq_zero.mp (Nat.le_zero.mp hn)
    subst this
    rw [getOptionsLoop_done _ _ _ _ (by simp)]
    rfl
  | succ n ih =>
    intro suf hn pre fuel opt hclean hfuel
    match suf, hn, hclean, hfuel with
    | [], _, _, _ =>
      rw [getOptionsLoop_done _ _ _ _ (by simp)]
      rfl
    | [a], _, hclean, hfuel =>
      obtain ⟨ha1, ha2⟩ := hclean a (List.mem_cons_self _ _)
      obtain ⟨c, hc, hdash⟩ := head_of_beginsWithDash a ha1
      obtain ⟨f, rfl⟩ : ∃ f, fuel = f + 1 := ⟨fuel - 1, by simp at hfuel; omega⟩
      unfold getOptionsLoop
      simp only [List.length_append, List.length_singleton, Nat.lt_add_one, if_true,
        List.getElem?_append_right (Nat.le_refl _), Nat.sub_self, List.getElem?_cons_zero, hc]
      by_cases hcd : c = '-'
      · have hd : beginsWithDash a = true := hdash.mpr hcd
        simp only [hcd, ne_eq, not_true_eq_false, if_false, Nat.lt_irrefl,
          parseOption_no_eq a "" opt ha2, true_or, if_true]
        rw [getOptionsLoop_done _ _ _ _ (by simp)]
        simp [scanSpec, hd]
      · have hd : beginsWithDash a = false := by
          cases hb : beginsWithDash a with
          | false => rfl
          | true => exact absurd (hdash.mp hb) hcd
        simp [hcd, scanSpec, hd]
    | a :: b :: rest, hn, hclean, hfuel =>
      obtain ⟨ha1, ha2⟩ := hclean a (List.mem_cons_self _ _)
      obtain ⟨hb1, hb2⟩ := hclean b (List.mem_cons_of_mem _ (List.mem_cons_self _ _))
      obtain ⟨c, hc, hdash⟩ := head_of_beginsWithDash a ha1
      obtain ⟨f, rfl⟩ : ∃ f, fuel = f + 1 := ⟨fuel - 1, by simp at hfuel; omega⟩
      have hlen : pre.length < (pre ++ a :: b :: rest).length := by simp
      have hlen2 : pre.length + 1 < (pre ++ a :: b :: rest).length := by simp
      have hget : (pre ++ a :: b :: rest)[pre.length]? = some a := by
        rw [List.getElem?_append_right (Nat.le_refl _)]
        simp
      have hget2 : (pre ++ a :: b :: rest).getD (pre.length + 1) "" = b := by
        rw [List.getD_eq_getElem?_getD, List.getElem?_append_right (by omega)]
        simp
      unfold getOptionsLoop
      simp only [hlen, hlen2, if_true, hget, hc, hget2]
      by_cases hcd : c = '-'
      · have hd : beginsWithDash a = true := hdash.mpr hcd
        simp only [hcd, ne_eq, not_true_eq_false, if_false, parseOption_no_eq a b opt ha2,
          hb1, false_or]
        cases hbd : beginsWithDash b with
        | true =>
          simp only [Bool.true_eq_false, if_false]
          have := ih (b :: rest) (by simp at hn ⊢; omega) (pre ++ [a]) f opt
            (fun x hx => hclean x (List.mem_cons_of_mem _ hx)) (by simp at hfuel ⊢; omega)
          simp only [List.append_assoc, List.singleton_append, List.length_append,
            List.length_singleton] at this
          rw [this]
          simp [scanSpec, hd, hbd]
        | false =>
          simp only [if_true]
          have := ih rest (by simp at hn ⊢; omega) (pre ++ [a, b]) f (assignFlag a b opt)
            (fun x hx => hclean x (List.mem_cons_of_mem _ (List.mem_cons_of_mem _ hx)))
            (by simp at hfuel ⊢; omega)
          simp only [List.append_assoc, List.cons_append, List.nil_append, List.length_append,
            List.length_cons, List.length_nil] at this
          rw [this]
          simp [scanSpec, hd, hbd]
      · have hd : beginsWithDash a = false := by
          cases hb : beginsWithDash a with
          | false => rfl
          | true => exact absurd (hdash.mp hb) hcd
        simp [hcd, scanSpec, hd]

theorem scanSpec_no_dash (a : String) (rest : List String) (opt : Options)
    (h : beginsWithDash a = false) : scanSpec (a :: rest) opt = opt := by
  cases rest <;> simp [scanSpec, h]

theorem scanSpec_stop (stop : String) (rest rest1 : List String)
    (hstop : beginsWithDash stop = false) (n : Nat) :
    ∀ (pre : List String), pre.length ≤ n → ∀ opt, flagPrefix pre stop = true →
      scanSpec (pre ++ stop :: rest) opt = scanSpec (pre ++ stop :: rest1) opt := by
  induction n with
  | zero =>
    intro pre hn opt _
    have : pre = [] := List.length_eq_zero.mp (Nat.le_zero.mp hn)
    subst this
    simp [scanSpec_no_dash _ _ _ hstop]
  | succ n ih =>
    intro pre hn opt hpre
    match pre, hn, hpre with
    | [], _, _ => simp [scanSpec_no_dash _ _ _ hstop]
    | [a], _, hpre => simp [flagPrefix, hstop] at hpre
    | a :: b :: pre0, hn, hpre =>
      simp only [flagPrefix, Bool.and_eq_true] at hpre
      obtain ⟨ha, hrest⟩ := hpre
      cases hb : beginsWithDash b with
      | true =>
        simp only [hb, if_true] at hrest
        have := ih (b :: pre0) (by simp at hn ⊢; omega) opt hrest
        simpa [scanSpec, ha, hb] using this
      | false =>
        simp only [hb, Bool.false_eq_true, if_false] at hrest
        have := ih pre0 (by simp at hn ⊢; omega) (assignFlag a b opt) hrest
        simpa [scanSpec, ha, hb] using this

theorem scanSpec_skip (a b : String) (rest : List String)
    (ha : beginsWithDash a = true) (hb : beginsWithDash b = true) (n : Nat) :
    ∀ (pre : List String), pre.length ≤ n → ∀ opt, flagPrefix pre a = true →
      scanSpec (pre ++ a :: b :: rest) opt = scanSpec (pre ++ b :: rest) opt := by
  induction n with
  | zero =>
    intro pre hn opt _
    have : pre = [] := List.length_eq_zero.mp (Nat.le_zero.mp hn)
    subst this
    simp [scanSpec, ha, hb]
  | succ n ih =>
    intro pre hn opt hpre
    match pre, hn, hpre with
    | [], _, _ => simp [scanSpec, ha, hb]
    | [x], _, hpre =>
      simp only [flagPrefix, Bool.and_eq_true] at hpre
      simp [scanSpec, hpre.1, ha, hb]
    | x :: y :: pre0, hn, hpre =>
      simp only [flagPrefix, Bool.and_eq_true] at hpre
      obtain ⟨hx, hrest⟩ := hpre
      cases hy : beginsWithDash y with
      | true =>
        simp only [hy, if_true] at hrest
        have := ih (y :: pre0) (by simp at hn ⊢; omega) opt hrest
        simpa [scanSpec, hx, hy] using this
      | false =>
        simp only [hy, Bool.false_eq_true, if_false] at hrest
        have := ih pre0 (by simp at hn ⊢; omega) (assignFlag x y opt) hrest
        simpa [scanSpec, hx, hy] using this

theorem getOptions_eq_scanSpec (args : List String)
    (hclean : ∀ a ∈ args, a ≠ "" ∧ '=' ∉ a.data) :
    getOptions args = .ok (scanSpec args noOptions) := by
  have := getOptionsLoop_refines args.length args (Nat.le_refl _) [] args.length noOptions
    hclean (Nat.le_refl _)
  simpa [getOptions, noOptions] using this

/-- C15: for every argument list of non-empty tokens without `=`, `getOptions` returns, with
the fuel of one unit per token, the options of the scan `scanSpec`, so it ends without an
error or a panic; every step of `parseOption` consumes one or two tokens; when the scan
reaches, in flag position, a token that does not begin with a dash, it stops there and the
tokens after it (flags `-o`, `-p`, `-importcfg` included) do not change the result; and a
flag in flag position whose next token begins with a dash assigns nothing, the next token
being read as a flag and not as its value: the result is the same as without that flag. -/
theorem getOptions_scan (args : List String)
    (hclean : ∀ a ∈ args, a ≠ "" ∧ '=' ∉ a.data) :
    getOptions args = .ok (scanSpec args noOptions) ∧
      (∀ (arg arg2 : String) (opt opt1 : Options) (k : Nat),
        parseOption arg arg2 opt = some (k, opt1) → k = 1 ∨ k = 2) ∧
      (∀ (pre : List String) (stop : String) (rest rest1 : List String),
        args = pre ++ stop :: rest → flagPrefix pre stop = true →
        beginsWithDash stop = false → (∀ a ∈ rest1, a ≠ "" ∧ '=' ∉ a.data) →
        getOptions (pre ++ stop :: rest1) = getOptions args) ∧
      (∀ (pre : List String) (a b : String) (rest : List String),
        args = pre ++ a :: b :: rest → flagPrefix pre a = true →
        beginsWithDash a = true → beginsWithDash b = true →
        getOptions args = getOptions (pre ++ b :: rest)) := by
  refine ⟨getOptions_eq_scanSpec args hclean, ?_, ?_, ?_⟩
  · intro arg arg2 opt opt1 k h
    exact parseOption_step arg arg2 opt opt1 k h
  · intro pre stop rest rest1 hargs hpre hstop hrest1
    have hclean1 : ∀ a ∈ pre ++ stop :: rest1, a ≠ "" ∧ '=' ∉ a.data := by
      intro a ha
      rcases List.mem_append.mp ha with h | h
      · exact hclean a (by rw [hargs]; exact List.mem_append_left _ h)
      · rcases List.mem_cons.mp h with h | h
        · exact hclean a (by rw [hargs, h]; simp)
        · exact hrest1 a h
    rw [getOptions_eq_scanSpec _ hclean1, getOptions_eq_scanSpec _ hclean, hargs,
      scanSpec_stop stop rest1 rest hstop pre.length pre (Nat.le_refl _) noOptions hpre]
  · intro pre a b rest hargs hpre ha hb
    have hclean1 : ∀ x ∈ pre ++ b :: rest, x ≠ "" ∧ '=' ∉ x.data := by
      intro x hx
      apply hclean x
      rw [hargs]
      rcases List.mem_append.mp hx with h | h
      · exact List.mem_append_left _ h
      · exact List.mem_append_right _ (List.mem_cons_of_mem _ h)
    rw [getOptions_eq_scanSpec _ hclean1, getOptions_eq_scanSpec _ hclean, hargs,
      scanSpec_skip a b rest ha hb pre.length pre (Nat.le_refl _) noOptions hpre]

theorem getOptions_scan_witness :
    getOptions scanArgs = .ok (scanSpec scanArgs noOptions) ∧
      (∀ (arg arg2 : String) (opt opt1 : Options) (k : Nat),
        parseOption arg arg2 opt = some (k, opt1) → k = 1 ∨ k = 2) ∧
      (∀ (pre : List String) (stop : String) (rest rest1 : List String),
        scanArgs = pre ++ stop :: rest → flagPrefix pre stop = true →
        beginsWithDash stop = false → (∀ a ∈ rest1, a ≠ "" ∧ '=' ∉ a.data) →
        getOptions (pre ++ stop :: rest1) = getOptions scanArgs) ∧
      (∀ (pre : List String) (a b : String) (rest : List String),
        scanArgs = pre ++ a :: b :: rest → flagPrefix pre a = true →
        beginsWithDash a = true → beginsWithDash b = true →
        getOptions scanArgs = getOptions (pre ++ b :: rest)) :=
  getOptions_scan scanArgs (by decide)

/-- The scan of the sample list: the three fields are read before `main.go`, the `-o` after
it is not, and `-trimpath` and `-complete`, each followed by a flag, assign nothing. -/
theorem getOptions_scan_sample :
    getOptions scanArgs = .ok { output := "out.a", packageName := "main", importCfg := "cfg" } ∧
      flagPrefix (scanArgs.take 8) "main.go" = true ∧
      getOptions (scanArgs.take 9) = getOptions scanArgs ∧
      getOptions ["-o", "-p", "main"] = .ok { output := "", packageName := "main", importCfg := "" } := by
  decide

/-! ## C14: the rewritten source arguments -/

theorem getSources_eq_filter (args : List String) :
    (getSources args).1 = args.filter (fun a => HasSuffix a ".go") ∧
      (getSources args).2 = args.filter (fun a => !HasSuffix a ".go") := by
  induction args with
  | nil => exact ⟨rfl, rfl⟩
  | cons a rest ih =>
    cases h : HasSuffix a ".go" <;> simp [getSources, h, ih.1, ih.2, List.filter_cons]

set_option maxRecDepth 100000 in
/-- The sample compile invocation, start to end: the arguments that are forwarded. -/
theorem instrumentPackage_sample_forwarded :
    forwarded (instrumentPackage sampleToolkit sampleHost sampleFlags compileArgs compileWorld) =
      some ["/go/tool/compile", "-o", "/b/_pkg_.a", "-p", "main", "-importcfg", "/b/importcfg",
        "-pack", "-complete", "/b/lib.go", "/b/main.go"] := by
  decide

theorem addFiles_dir (host : Host) (w : World) (files : List String) :
    ∀ (h0 h : packageInstrumentation), addFiles host w files h0 = some h → h.dir = h0.dir := by
  induction files with
  | nil =>
    intro h0 h hrun
    simp [addFiles] at hrun
    rw [hrun]
  | cons src rest ih =>
    intro h0 h hrun
    unfold addFiles at hrun
    cases ha : AddFile w h0 (host.Abs src) with
    | none => simp [ha] at hrun
    | some h1 =>
      rw [ha] at hrun
      have h1dir : h1.dir = h0.dir := by
        unfold AddFile at ha
        cases hf : w.files (host.Abs src) with
        | none => simp [hf] at ha
        | some content =>
          simp [hf] at ha
          rw [← ha]
      rw [ih h1 h hrun, h1dir]

theorem instrumentPackage_forwarded (tk : Toolkit) (host : Host) (flags : Flags)
    (args args1 : List String) (w w1 : World) (opt : Options)
    (hopt : getOptions (args.drop 1) = .ok opt)
    (ho : opt.output ≠ "") (hp : opt.packageName = "main") (hc : opt.importCfg ≠ "")
    (hrun : instrumentPackage tk host flags args w = .ok (args1, w1)) :
    args1 = (getSources args).2 ++ (getSources args).1.map (fun src =>
      host.Join (if flags.direc = "" then host.Dir opt.output else flags.direc) (Base src)) := by
  unfold instrumentPackage at hrun
  rw [hopt] at hrun
  have h3 : ¬ (opt.output = "" ∨ opt.packageName = "" ∨ opt.importCfg = "") := by
    rw [hp]
    rintro (h | h | h)
    · exact ho h
    · exact absurd h (by decide)
    · exact hc h
  have h4 : ¬ (opt.packageName ≠ "main") := by simp [hp]
  simp only [h3, h4, if_false] at hrun
  cases hm : w.files opt.importCfg with
  | none => simp [hm] at hrun
  | some manifest =>
    rw [hm] at hrun
    simp only at hrun
    cases hcfg : (w.write opt.importCfg (manifest ++ stringBytes covcollectEntry)).files
        (host.Join (host.Dir opt.output) "importcfg") with
    | none => simp [hcfg] at hrun
    | some cfg =>
      rw [hcfg] at hrun
      simp only at hrun
      cases hfiles : (getSources args).1 with
      | nil => simp [hfiles] at hrun
      | cons file0 more =>
        rw [hfiles] at hrun
        simp only at hrun
        cases hadd : addFiles host (w.write opt.importCfg (manifest ++ stringBytes covcollectEntry))
            (file0 :: more)
            { dir := if flags.direc = "" then host.Dir opt.output else flags.direc,
              suffix := host.hashHex file0, period := flags.funcCoverPeriod,
              fileName := flags.outputFile, parsedFiles := [] } with
        | none => simp [hadd] at hrun
        | some h =>
          rw [hadd] at hrun
          simp only at hrun
          have hdir := addFiles_dir host _ _ _ h hadd
          simp only at hdir
          cases hins : Instrument tk h (host.rangeFirst h.parsedFiles)
              (host.rangeSecond h.parsedFiles) with
          | ok rs =>
            rw [hins] at hrun
            simp only at hrun
            cases hwr : WriteInstrumented host h.dir (instrumentedMap rs)
                (w.write opt.importCfg (manifest ++ stringBytes covcollectEntry)) with
            | none => simp [hwr] at hrun
            | some w2 =>
              rw [hwr] at hrun
              simp only [Outcome.ok.injEq, Prod.mk.injEq] at hrun
              rw [← hrun.1, hdir]
          | err e => simp [hins] at hrun
          | panic => simp [hins] at hrun
          | exit c => simp [hins] at hrun
          | timeout => simp [hins] at hrun

set_option maxRecDepth 100000 in
/-- C14 (counterexample): when the source argument `/b/main.go` already lies in the staging
directory `/b` (the directory of the output path), its staged path is the same text, so the
forwarded list still holds the original source path; and when the tool path itself ends in
`.go`, as `/go/tool/compile.go` (which `isCompile` accepts), `getSources` moves it among the
sources and the forwarded list starts with `-o`. -/
theorem instrumentPackage_keeps_staged_source_path :
    (getSources stagedArgs).1 = ["/b/main.go"] ∧
      forwarded (instrumentPackage stagedToolkit sampleHost sampleFlags stagedArgs stagedWorld) =
        some ["/go/tool/compile", "-o", "/b/_pkg_.a", "-p", "main", "-importcfg",
          "/b/importcfg", "/b/main.go"] ∧
      isCompile "/go/tool/compile.go" = true ∧
      forwarded (instrumentPackage sampleToolkit sampleHost sampleFlags dotGoToolArgs
        dotGoToolWorld) =
        some ["-o", "/b/_pkg_.a", "-p", "main", "-importcfg", "/b/importcfg",
          "/b/compile.go", "/b/lib.go"] := by
  decide

/-- C14 (amended): `getSources` returns the arguments that end in `.go` and the other
arguments, each in the order of the argument list, and together they hold every argument
exactly once. When a compile invocation with an output path, the package name `main` and a
manifest path goes through `instrumentPackage`, the forwarded list is the other arguments, in
order, followed by the path `Join(dir, Base(source))` for every source argument, in order,
where `dir` is the `-dir` flag or, when that is empty, the directory of the output path; none
of the kept arguments is a source argument, and the tool path is still first when it does not
itself end in `.go`. -/
theorem instrumentPackage_rewrites_sources (tk : Toolkit) (host : Host) (flags : Flags)
    (args args1 : List String) (w w1 : World) (opt : Options)
    (hopt : getOptions (args.drop 1) = .ok opt)
    (ho : opt.output ≠ "") (hp : opt.packageName = "main") (hc : opt.importCfg ≠ "")
    (hrun : instrumentPackage tk host flags args w = .ok (args1, w1)) :
    getSources args =
        (args.filter (fun a => HasSuffix a ".go"), args.filter (fun a => !HasSuffix a ".go")) ∧
      ((getSources args).1 ++ (getSources args).2).Perm args ∧
      (getSources args).1.Sublist args ∧ (getSources args).2.Sublist args ∧
      args1 = (getSources args).2 ++ (getSources args).1.map (fun src =>
        host.Join (if flags.direc = "" then host.Dir opt.output else flags.direc)
          (Base src)) ∧
      (∀ a ∈ (getSources args).2, a ∉ (getSources args).1) ∧
      (∀ command rest, args = command :: rest → HasSuffix command ".go" = false →
        args1.head? = some command) := by
  obtain ⟨h1, h2⟩ := getSources_eq_filter args
  have hfwd := instrumentPackage_forwarded tk host flags args args1 w w1 opt hopt ho hp hc hrun
  refine ⟨Prod.ext h1 h2, ?_, ?_, ?_, hfwd, ?_, ?_⟩
  · rw [h1, h2]
    exact List.filter_append_perm _ _
  · rw [h1]
    exact List.filter_sublist _
  · rw [h2]
    exact List.filter_sublist _
  · intro a ha hb
    rw [h2] at ha
    rw [h1] at hb
    have ha' := (List.mem_filter.mp ha).2
    have hb' := (List.mem_filter.mp hb).2
    simp [hb'] at ha'
  · intro command rest hargs hsuf
    rw [hfwd, h2, hargs]
    simp [List.filter_cons, hsuf]

set_option maxRecDepth 100000 in
theorem instrumentPackage_rewrites_sources_witness :
    getSources compileArgs =
        (compileArgs.filter (fun a => HasSuffix a ".go"),
          compileArgs.filter (fun a => !HasSuffix a ".go")) ∧
      ((getSources compileArgs).1 ++ (getSources compileArgs).2).Perm compileArgs ∧
      (getSources compileArgs).1.Sublist compileArgs ∧
      (getSources compileArgs).2.Sublist compileArgs ∧
      ["/go/tool/compile", "-o", "/b/_pkg_.a", "-p", "main", "-importcfg", "/b/importcfg",
          "-pack", "-complete", "/b/lib.go", "/b/main.go"] =
        (getSources compileArgs).2 ++ (getSources compileArgs).1.map (fun src =>
          sampleHost.Join (if sampleFlags.direc = "" then
            sampleHost.Dir (Options.mk "/b/_pkg_.a" "main" "/b/importcfg").output
            else sampleFlags.direc) (Base src)) ∧
      (∀ a ∈ (getSources compileArgs).2, a ∉ (getSources compileArgs).1) ∧
      (∀ command rest, compileArgs = command :: rest → HasSuffix command ".go" = false →
        (["/go/tool/compile", "-o", "/b/_pkg_.a", "-p", "main", "-importcfg", "/b/importcfg",
          "-pack", "-complete", "/b/lib.go", "/b/main.go"] : List String).head? =
          some command) :=
  instrumentPackage_rewrites_sources sampleToolkit sampleHost sampleFlags compileArgs
    ["/go/tool/compile", "-o", "/b/_pkg_.a", "-p", "main", "-importcfg", "/b/importcfg",
      "-pack", "-complete", "/b/lib.go", "/b/main.go"]
    compileWorld
    (worldAfter (instrumentPackage sampleToolkit sampleHost sampleFlags compileArgs compileWorld)
      compileWorld)
    (Options.mk "/b/_pkg_.a" "main" "/b/importcfg")
    (by decide) (by decide) (by decide) (by decide) (by rfl)

end Funccover
